import Mathlib

/-!
Verification of the TFB visual workflow builder's graph-integrity logic.

This file gives a shallow embedding, in Lean, of the pure data-manipulation
core of the application: the output-naming generator (`OutputNaming`), the
node data manager (`NodeDataManager`), the cascading-delete analyzer
(`CascadingDeleteManager`), the workflow validator of the main controller
(`ToolFlowBuilder`), and the execution orchestrator (`WorkflowEngine`).
JavaScript strings are modelled as Lean `String`, JavaScript arrays as `List`,
the `Map`/`Set` containers as association lists and duplicate-free lists, and
the event bus as an explicit list of emitted events.  DOM access, logging and
artificial delays are dropped; everything that feeds a decision or a returned
value is kept.
-/

namespace TFB

/-! ### JavaScript string primitives -/

/-- Lexicographic comparison of character lists by code point, the order
JavaScript string comparison (and the default `Array.prototype.sort`)
induces on the label strings of this system. -/
def charListLe : List Char → List Char → Bool
  | [], _ => true
  | _ :: _, [] => false
  | a :: as, b :: bs =>
    if a.toNat < b.toNat then true
    else if b.toNat < a.toNat then false
    else charListLe as bs

/-- JavaScript string comparison `a <= b`. -/
def jsStrLe (a b : String) : Bool := charListLe a.data b.data

/-- JavaScript `s.toLowerCase()` (on the ASCII labels of this system). -/
def jsToLower (s : String) : String := ⟨s.data.map Char.toLower⟩

/-- JavaScript `s.trim()`: whitespace removed from both ends. -/
def jsTrim (s : String) : String :=
  ⟨((s.data.dropWhile Char.isWhitespace).reverse.dropWhile Char.isWhitespace).reverse⟩

/-- JavaScript `s.substring(0, n)`. -/
def jsTake (s : String) (n : Nat) : String := ⟨s.data.take n⟩

/-- Substring test, `haystack.includes(needle)` of JavaScript: the needle
occurs contiguously inside the haystack. -/
def jsIncludes (s pat : String) : Bool := decide (pat.data <:+: s.data)

/-- Replacement of the first occurrence only, as JavaScript
`String.prototype.replace` does when given a plain string pattern. -/
def replaceFirstAux (pat rep : List Char) : List Char → List Char
  | [] => []
  | c :: rest =>
    if pat.isPrefixOf (c :: rest) then rep ++ (c :: rest).drop pat.length
    else c :: replaceFirstAux pat rep rest

/-- JavaScript `s.replace(pat, rep)` with a string pattern: first occurrence
only; the string is returned unchanged when the pattern does not occur. -/
def jsReplaceFirst (s pat rep : String) : String :=
  ⟨replaceFirstAux pat.data rep.data s.data⟩

/-- JavaScript `s.endsWith(suffix)`. -/
def jsEndsWith (s suf : String) : Bool := suf.data.isSuffixOf s.data

/-- JavaScript `Array.prototype.sort()` on an array of strings: the unique
sorted stable permutation under lexicographic string comparison. -/
def jsSortStrings (l : List String) : List String :=
  List.insertionSort (fun a b => jsStrLe a b = true) l

/-- Removal of a trailing `".txt"`, the anchored regex replace
`label.replace(/\.txt$/, '')` used by the simulated output generators. -/
def stripTxtSuffix (s : String) : String :=
  if jsEndsWith s ".txt" then ⟨s.data.take (s.data.length - 4)⟩ else s

/-- The anchored regex replace `label.replace(/\.(txt|pdf|docx|xlsx)$/, '')`
of the cascading-delete analyzer: one known extension is removed from the
end of the label; anything else is kept. -/
def stripKnownExt (s : String) : String :=
  if jsEndsWith s ".txt" then ⟨s.data.take (s.data.length - 4)⟩
  else if jsEndsWith s ".pdf" then ⟨s.data.take (s.data.length - 4)⟩
  else if jsEndsWith s ".docx" then ⟨s.data.take (s.data.length - 5)⟩
  else if jsEndsWith s ".xlsx" then ⟨s.data.take (s.data.length - 5)⟩
  else s

/-- The suffix of a character list starting at its last `'.'`, if any:
the basis of `getFileExtension`. -/
def lastDotSuffix : List Char → Option (List Char)
  | [] => none
  | c :: rest =>
    match lastDotSuffix rest with
    | some suf => some suf
    | none => if c = '.' then some (c :: rest) else none

/-- `NodeDataManager.getFileExtension`: the lowercased substring from the last
dot of the file name, or the empty string when there is no dot. -/
def getFileExtension (s : String) : String :=
  match lastDotSuffix s.data with
  | some suf => jsToLower ⟨suf⟩
  | none => ""

/-- Decimal digit list of a natural number, most significant first, with an
explicit fuel argument for structural termination. -/
def natReprAux : Nat → Nat → List Char
  | 0, _ => []
  | f + 1, n =>
    if n < 10 then [Nat.digitChar n]
    else natReprAux f (n / 10) ++ [Nat.digitChar (n % 10)]

/-- Decimal rendering of a natural number, as JavaScript template
interpolation `x -> a plain decimal numeral` renders a nonnegative integer. -/
def jsNatStr (n : Nat) : String := ⟨natReprAux (n + 1) n⟩

/-- Value of a most-significant-first digit string (proof-side measure for
`natReprAux`). -/
def digitsVal (cs : List Char) : Nat := cs.foldl (fun a c => 10 * a + (c.toNat - 48)) 0

/-- Accumulator pass for `jsSetDedup`. -/
def dedupAux (seen : List String) : List String → List String
  | [] => []
  | x :: xs => if x ∈ seen then dedupAux seen xs else x :: dedupAux (x :: seen) xs

/-- JavaScript `[...new Set(list)]`: duplicates removed, first occurrences
kept in order. -/
def jsSetDedup (l : List String) : List String := dedupAux [] l

/-- JavaScript `option || defaultString` on an optional string field: both a
missing field and an empty string fall back to the default. -/
def jsOrDefault (o : Option String) (d : String) : String :=
  match o with
  | some s => if s = "" then d else s
  | none => d

/-! ### `OutputNaming` (services/OutputNaming in the source bundle)

The conflict counter, a JavaScript `Map` from full file name to the last
counter used for it, is modelled as an association list with
first-match lookup. -/

namespace OutputNaming

/-- The `conflictCounter` map of the `OutputNaming` service. -/
abbrev ConflictSt := List (String × Nat)

/-- `conflictCounter.get(k)` (with `has` derived from it). -/
def lookupSt (st : ConflictSt) (k : String) : Option Nat := List.lookup k st

/-- `conflictCounter.has(k)`. -/
def hasKey (st : ConflictSt) (k : String) : Bool := (lookupSt st k).isSome

/-- `conflictCounter.set(k, v)`: overwrite the existing entry or append. -/
def setKey : ConflictSt → String → Nat → ConflictSt
  | [], k, v => [(k, v)]
  | (k', v') :: rest, k, v =>
    if k' = k then (k, v) :: rest else (k', v') :: setKey rest k v

/-- The `while (this.conflictCounter.has(resolvedName))` search of
`resolveNamingConflict`: keep incrementing the counter until the candidate
name `baseName + counter + extension` is not a key of the map.  The fuel is
one more than the number of entries of the map, which always suffices. -/
def findFreeCounter (st : ConflictSt) (baseName extension : String) : Nat → Nat → Nat
  | 0, c => c
  | f + 1, c =>
    if hasKey st (baseName ++ jsNatStr c ++ extension) then
      findFreeCounter st baseName extension f (c + 1)
    else c

/-- `OutputNaming.resolveNamingConflict(baseName, extension)`: returns the
plain name on first use and a numbered name on a conflict, updating the
conflict counter map. -/
def resolveNamingConflict (st : ConflictSt) (baseName extension : String) :
    ConflictSt × String :=
  let fullName := baseName ++ extension
  match lookupSt st fullName with
  | none => (setKey st fullName 1, fullName)
  | some c0 =>
    let counter := findFreeCounter st baseName extension (st.length + 1) (c0 + 1)
    let resolvedName := baseName ++ jsNatStr counter ++ extension
    (setKey (setKey st fullName counter) resolvedName 1, resolvedName)

/-- Optional parameters of the naming generators. -/
structure Params where
  language : Option String := none
  templateName : Option String := none

/-- The `langCodes` table of `getLanguageCode`. -/
def langCodes : List (String × String) :=
  [("english", "en"), ("dutch", "nl"), ("french", "fr"), ("german", "de"),
   ("spanish", "es"), ("italian", "it"), ("portuguese", "pt")]

/-- `OutputNaming.getLanguageCode`. -/
def getLanguageCode (language : String) : String :=
  let normalized := jsToLower language
  match List.lookup normalized langCodes with
  | some code => code
  | none => jsTake normalized 2

/-- `OutputNaming.getToolSuffix`. -/
def getToolSuffix (toolType : String) (params : Params) : String :=
  if toolType = "summarizer" then "-sum"
  else if toolType = "analyzer" then "-analysis"
  else if toolType = "translator" then
    "-" ++ getLanguageCode (jsOrDefault params.language "en")
  else ""

/-- `OutputNaming.generateProcessingOutput`, the combined many-to-one naming
path (summarizer, analyzer, translator): sort the input labels, concatenate
them, append the tool suffix and resolve naming conflicts. -/
def generateProcessingOutput (st : ConflictSt) (inputLabels : List String)
    (toolType : String) (params : Params) : ConflictSt × List String :=
  let sortedLabels := jsSortStrings inputLabels
  let suffix := getToolSuffix toolType params
  let baseName := String.join sortedLabels ++ suffix
  let res := resolveNamingConflict st baseName ".txt"
  (res.1, [res.2])

/-- A sequence of calls to `resolveNamingConflict`, threading the conflict
map through and collecting the returned names in order. -/
def runResolver (st : ConflictSt) : List (String × String) → ConflictSt × List String
  | [] => (st, [])
  | (b, e) :: reqs =>
    let r1 := resolveNamingConflict st b e
    let r2 := runResolver r1.1 reqs
    (r2.1, r1.2 :: r2.2)

end OutputNaming

/-! ### `NodeDataManager` (pure node data management) -/

namespace NodeDataManager

/-- A node record: the fields of the node store that feed validation and
output generation. -/
structure NodeRec where
  id : String
  type : String
  inputLabels : List String
  outputLabels : List String
  userPrompt : String
deriving DecidableEq

/-- Events emitted on the bus by the node data manager, restricted to the
payload fields the observers read. -/
inductive Ev
  | validationFailed (nodeId label message : String)
  | stateEvaluate (nodeId : String)
  | inputsChanged (nodeId label action : String)
  | removeTextFileLabel (fileName sourceNodeId : String)
  | nodeOutputCreated (fileName nodeId : String)
deriving DecidableEq

/-- One row of the validation-rules table. -/
structure InputRules where
  acceptedTypes : List String
  minInputs : Nat
  maxInputs : Option Nat
deriving DecidableEq

/-- `NodeDataManager.getInputRules`: the validation-rules table. -/
def getInputRules (nodeType : String) : InputRules :=
  if nodeType = "pdf2text" then ⟨[".pdf"], 1, none⟩
  else if nodeType = "audio2text" then ⟨[".mp3", ".wav", ".m4a", ".mp4"], 1, none⟩
  else if nodeType = "image2text" then ⟨[".jpg", ".png", ".jpeg", ".gif"], 1, none⟩
  else if nodeType = "video2text" then ⟨[".mp4", ".avi", ".mov"], 1, none⟩
  else if nodeType = "summarizer" then ⟨[".txt"], 1, none⟩
  else if nodeType = "translator" then ⟨[".txt"], 1, none⟩
  else if nodeType = "analyzer" then ⟨[".txt"], 1, none⟩
  else if nodeType = "join" then ⟨[".txt"], 2, none⟩
  else if nodeType = "text2pdf" then ⟨[".txt"], 1, none⟩
  else if nodeType = "text2docx" then ⟨[".txt"], 1, none⟩
  else if nodeType = "text2template" then ⟨[".txt"], 1, some 1⟩
  else ⟨[], 0, none⟩

/-- `NodeDataManager.isInputTypeValid`. -/
def isInputTypeValid (nodeType inputLabel : String) : Bool :=
  (getInputRules nodeType).acceptedTypes.contains (getFileExtension inputLabel)

/-- `NodeDataManager.getNodePromptRequirement`. -/
def getNodePromptRequirement (nodeType : String) : String :=
  if nodeType = "summarizer" then "optional"
  else if nodeType = "translator" then "mandatory"
  else if nodeType = "analyzer" then "mandatory"
  else if nodeType = "text2template" then "mandatory"
  else "optional"

/-- `NodeDataManager.hasValidUserPrompt`: the prompt is non-empty after
trimming. -/
def hasValidUserPrompt (node : NodeRec) : Bool := (jsTrim node.userPrompt).length > 0

/-- The guard `inputRules.maxInputs && currentInputs.length >= maxInputs`:
a missing limit, and the falsy limit `0`, disable the check. -/
def maxInputsReached (rules : InputRules) (count : Nat) : Bool :=
  match rules.maxInputs with
  | some m => if m = 0 then false else decide (count ≥ m)
  | none => false

/-- The type-specific rejection texts for a missing mandatory prompt. -/
def mandatoryMessage (nodeType : String) : String :=
  if nodeType = "translator" then
    "You have to add a user-prompt before you can drop a file in a translation node"
  else if nodeType = "analyzer" then
    "You have to add a user-prompt before you can drop a file in an analyzer node"
  else if nodeType = "webscraper" then
    "You have to add a URL prompt before you can use the webscraper node"
  else nodeType ++ " requires a user prompt before accepting inputs"

/-- Result record of `validateNodeInput`. -/
structure Validation where
  canAccept : Bool
  reason : String
  message : String
deriving DecidableEq

/-- `NodeDataManager.validateNodeInput`: the four rejection checks in source
order (type compatibility, max-input limit, duplicate, mandatory prompt). -/
def validateNodeInput (node : NodeRec) (newInputLabel : String) : Validation :=
  if ¬ isInputTypeValid node.type newInputLabel then
    ⟨false, "incompatible_type",
      node.type ++ " doesn\x27t accept " ++ getFileExtension newInputLabel ++ " files"⟩
  else if maxInputsReached (getInputRules node.type) node.inputLabels.length then
    ⟨false, "max_inputs_exceeded",
      node.type ++ " accepts maximum " ++
        jsNatStr ((getInputRules node.type).maxInputs.getD 0) ++ " input(s)"⟩
  else if node.inputLabels.contains newInputLabel then
    ⟨false, "duplicate_input", "Input " ++ newInputLabel ++ " already added to this node"⟩
  else if getNodePromptRequirement node.type = "mandatory" ∧ ¬ hasValidUserPrompt node then
    ⟨false, "missing_mandatory_prompt", mandatoryMessage node.type⟩
  else ⟨true, "valid", ""⟩

/-- The `languageMap` of `parseLanguageFromPrompt`, in insertion order. -/
def languageMap : List (String × String) :=
  [("french", "fr"), ("france", "fr"), ("russian", "ru"), ("russia", "ru"),
   ("german", "de"), ("germany", "de"), ("spanish", "es"), ("spain", "es"),
   ("italian", "it"), ("italy", "it"), ("portuguese", "pt"), ("portugal", "pt"),
   ("chinese", "zh"), ("china", "zh"), ("japanese", "jp"), ("japan", "jp"),
   ("korean", "kr"), ("korea", "kr"), ("arabic", "ar"), ("english", "en"),
   ("dutch", "nl"), ("polish", "pl"), ("swedish", "se"), ("norwegian", "no"),
   ("danish", "dk")]

/-- JavaScript `\w`: letters, digits and underscore. -/
def isWordChar (c : Char) : Bool := c.isAlpha || c.isDigit || c = '_'

/-- A lowercase ASCII letter, the character class `[a-z]`. -/
def isLowerAZ (c : Char) : Bool := decide ('a' ≤ c) && decide (c ≤ 'z')

/-- Whether a word boundary follows the two matched letters: end of input or
a non-word character. -/
def boundaryAfter : List Char → Bool
  | [] => true
  | c :: _ => ! isWordChar c

/-- Leftmost match of the regex `\b([a-z]{2})\b`: scan positions left to
right, tracking whether the previous character was a word character. -/
def findLangCodeAux : Bool → List Char → Option String
  | _, [] => none
  | atBoundary, a :: rest =>
    match rest with
    | [] => none
    | b :: rest2 =>
      if atBoundary && isLowerAZ a && isLowerAZ b && boundaryAfter rest2 then
        some ⟨[a, b]⟩
      else findLangCodeAux (! isWordChar a) (b :: rest2)

/-- First entry of the language map whose name occurs in the prompt. -/
def findFirstIncluded : List (String × String) → String → Option String
  | [], _ => none
  | (lang, code) :: rest, prompt =>
    if jsIncludes prompt lang then some code else findFirstIncluded rest prompt

/-- `NodeDataManager.parseLanguageFromPrompt`. -/
def parseLanguageFromPrompt (userPrompt : String) : Option String :=
  if jsTrim userPrompt = "" then none
  else
    let prompt := jsTrim (jsToLower userPrompt)
    match findFirstIncluded languageMap prompt with
    | some code => some code
    | none =>
      match findLangCodeAux true prompt.data with
      | some code => some code
      | none => some "xx"

/-- `NodeDataManager.outputIndividualFiles`: one output per input label, with
a trailing `.txt` stripped before the suffix is appended. -/
def outputIndividualFiles (inputLabels : List String) (suf : String) : List String :=
  inputLabels.map (fun input => stripTxtSuffix input ++ suf)

/-- `NodeDataManager.outputCombinedFiles`: the `.txt`-stripped input labels
concatenated in their stored order (no sorting), then the suffix. -/
def outputCombinedFiles (inputLabels : List String) (suf : String) : List String :=
  [String.join (inputLabels.map stripTxtSuffix) ++ suf]

/-- `NodeDataManager.generateSimulatedOutputs`. -/
def generateSimulatedOutputs (node : NodeRec) : List String :=
  if node.type = "pdf2text" ∨ node.type = "audio2text" ∨
      node.type = "image2text" ∨ node.type = "video2text" then
    outputIndividualFiles node.inputLabels ".txt"
  else if node.type = "translator" then
    match parseLanguageFromPrompt node.userPrompt with
    | some targetLang => outputIndividualFiles node.inputLabels ("-" ++ targetLang ++ ".txt")
    | none => []
  else if node.type = "summarizer" then outputIndividualFiles node.inputLabels "-sum.txt"
  else if node.type = "analyzer" then
    if jsTrim node.userPrompt ≠ "" then outputCombinedFiles node.inputLabels "-anl.txt" else []
  else if node.type = "join" then outputCombinedFiles node.inputLabels "-joi.txt"
  else if node.type = "text2pdf" then outputIndividualFiles node.inputLabels ".pdf"
  else if node.type = "text2docx" then outputIndividualFiles node.inputLabels ".docx"
  else if node.type = "text2template" then
    if jsTrim node.userPrompt ≠ "" then outputIndividualFiles node.inputLabels "-filled.txt" else []
  else []

/-- `NodeDataManager.updateNodeOutputs`: regenerate the output labels (with
the combined-flow retraction events) or clear them below the minimum. -/
def updateNodeOutputs (node : NodeRec) : NodeRec × List Ev :=
  if node.inputLabels.isEmpty then ({ node with outputLabels := [] }, [])
  else
    let inputRules := getInputRules node.type
    if node.inputLabels.length ≥ inputRules.minInputs then
      let isCombinedFlow := node.type = "join" ∨ node.type = "analyzer"
      let removalEvs :=
        if isCombinedFlow ∧ ¬ node.outputLabels.isEmpty then
          node.outputLabels.map (fun o => Ev.removeTextFileLabel o node.id)
        else []
      let newOutputs := generateSimulatedOutputs node
      let createEvs := newOutputs.map (fun o => Ev.nodeOutputCreated o node.id)
      ({ node with outputLabels := newOutputs }, removalEvs ++ createEvs)
    else ({ node with outputLabels := [] }, [])

/-- First node of the store with the given id. -/
def getNodeById (nodes : List NodeRec) (nodeId : String) : Option NodeRec :=
  nodes.find? (fun n => n.id = nodeId)

/-- In-place mutation of the node found by id, modelled functionally (node
ids are unique in the store, enforced by `addNode`). -/
def replaceNode (nodes : List NodeRec) (nodeId : String) (node' : NodeRec) :
    List NodeRec :=
  nodes.map (fun n => if n.id = nodeId then node' else n)

/-- `NodeDataManager.addLabelToNode`: validate, then append the label,
regenerate outputs and emit the change events; any rejection returns `false`
with the store untouched. -/
def addLabelToNode (nodes : List NodeRec) (nodeId label : String) :
    Bool × List NodeRec × List Ev :=
  match getNodeById nodes nodeId with
  | none => (false, nodes, [])
  | some node =>
    let validation := validateNodeInput node label
    if validation.canAccept = false then
      (false, nodes, [Ev.validationFailed nodeId label validation.message])
    else if node.inputLabels.contains label then
      (false, nodes, [])
    else
      let node1 := { node with inputLabels := node.inputLabels ++ [label] }
      let upd := updateNodeOutputs node1
      (true, replaceNode nodes nodeId upd.1,
        upd.2 ++ [Ev.stateEvaluate nodeId, Ev.inputsChanged nodeId label "added"])

end NodeDataManager

/-! ### `CascadingDeleteManager` (deletion impact analysis) -/

namespace CascadingDeleteManager

open NodeDataManager (NodeRec)

/-- One row of the analyzer's own copy of the rules table (`minInputs` is the
only consulted field). -/
structure InputRulesCD where
  minInputs : Nat
  maxInputs : Option Nat
deriving DecidableEq

/-- `CascadingDeleteManager.getInputRules`, the analyzer's own table (note it
lists `template`, not `text2template`, and defaults to a minimum of 1). -/
def getInputRules (nodeType : String) : InputRulesCD :=
  if nodeType = "pdf2text" then ⟨1, none⟩
  else if nodeType = "audio2text" then ⟨1, none⟩
  else if nodeType = "image2text" then ⟨1, none⟩
  else if nodeType = "video2text" then ⟨1, none⟩
  else if nodeType = "translator" then ⟨1, none⟩
  else if nodeType = "summarizer" then ⟨1, none⟩
  else if nodeType = "analyzer" then ⟨1, none⟩
  else if nodeType = "join" then ⟨2, none⟩
  else if nodeType = "text2pdf" then ⟨1, none⟩
  else if nodeType = "text2docx" then ⟨1, none⟩
  else if nodeType = "template" then ⟨1, none⟩
  else ⟨1, none⟩

/-- `CascadingDeleteManager.nodeUsesLabel`: some input label of the node,
with a first `".txt"` removed, equals the base label. -/
def nodeUsesLabel (node : NodeRec) (baseLabel : String) : Bool :=
  node.inputLabels.any (fun input => jsReplaceFirst input ".txt" "" = baseLabel)

/-- The per-node impact record produced by `analyzeNodeDeletion`. -/
structure NodeImpact where
  nodeId : String
  nodeType : String
  currentInputs : List String
  remainingInputs : List String
  willBeDeleted : Bool
  reason : String
deriving DecidableEq

/-- `CascadingDeleteManager.analyzeNodeDeletion`: drop every input whose
`".txt"`-stripped base equals the removed label, and mark the node for full
deletion exactly when the remaining inputs are below the type's minimum. -/
def analyzeNodeDeletion (node : NodeRec) (removedLabel : String) : NodeImpact :=
  let currentInputs := node.inputLabels
  let remainingInputs :=
    currentInputs.filter (fun input => ¬ (jsReplaceFirst input ".txt" "" = removedLabel))
  let inputRules := getInputRules node.type
  let willBeDeleted := decide (remainingInputs.length < inputRules.minInputs)
  { nodeId := node.id, nodeType := node.type, currentInputs := currentInputs,
    remainingInputs := remainingInputs, willBeDeleted := willBeDeleted,
    reason :=
      if willBeDeleted then
        "Node needs minimum " ++ jsNatStr inputRules.minInputs ++
          " inputs, will have " ++ jsNatStr remainingInputs.length
      else "Node will continue with remaining inputs" }

/-- The label stores the analyzer holds references to (input files, derived
text files, output zone), modelled by their label lists. -/
structure Stores where
  inputFileLabels : List String
  textFileLabels : List String
  outputZoneLabels : List String

/-- `CascadingDeleteManager.getAllLabelsInSystem`: the gathered labels,
deduplicated via `new Set`.  The output-zone contribution is guarded by
`this.outputZone && this.outputZone.getAllLabels`; the `OutputZone` class
wired in by the main controller defines `getOutputs`, `hasLabel` and
`removeLabel` but no `getAllLabels`, so that guard is always false in the
shipped composition and only the input-file and text-file stores
contribute. -/
def getAllLabelsInSystem (stores : Stores) : List String :=
  jsSetDedup (stores.inputFileLabels ++ stores.textFileLabels)

/-- The impact record of `analyzeDeletionImpact`. -/
structure Impact where
  label : String
  baseLabel : String
  affectedNodes : List NodeImpact
  deletedConnections : List (String × String)
  cascadingDeletes : List String
  totalNodesDeleted : Nat
  totalConnectionsDeleted : Nat
deriving DecidableEq

/-- `CascadingDeleteManager.analyzeDeletionImpact`: per-node impact for each
node using the label, the connections of fully deleted nodes, and the
cascading labels (every other system label whose extension-stripped name
contains the base label as a substring). -/
def analyzeDeletionImpact (stores : Stores) (allNodes : List NodeRec)
    (allConnections : List (String × String)) (labelToDelete : String) : Impact :=
  let baseLabel := jsReplaceFirst labelToDelete ".txt" ""
  let usingNodes := allNodes.filter (fun n => nodeUsesLabel n baseLabel)
  let affectedNodes := usingNodes.map (fun n => analyzeNodeDeletion n baseLabel)
  let deletedNodes := usingNodes.filter (fun n => (analyzeNodeDeletion n baseLabel).willBeDeleted)
  let deletedConnections :=
    deletedNodes.flatMap (fun n => allConnections.filter (fun c => c.1 = n.id ∨ c.2 = n.id))
  let allLabels := getAllLabelsInSystem stores
  let cascadingLabels := allLabels.filter (fun label =>
    if label = labelToDelete then false
    else jsIncludes (stripKnownExt label) baseLabel)
  { label := labelToDelete, baseLabel := baseLabel, affectedNodes := affectedNodes,
    deletedConnections := deletedConnections, cascadingDeletes := cascadingLabels,
    totalNodesDeleted := deletedNodes.length,
    totalConnectionsDeleted := deletedConnections.length }

/-- Modelled from the spec, for comparison with the code: "L minus its
extension" read literally, i.e. the label with everything from its last dot
removed (any extension, not only `.txt`). -/
def specMinusExtension (s : String) : String :=
  match lastDotSuffix s.data with
  | some suf => ⟨s.data.take (s.data.length - suf.length)⟩
  | none => s

end CascadingDeleteManager

/-! ### `ToolFlowBuilder` (main.js): workflow validation, cycle detection,
duplicate-action detection -/

namespace ToolFlowBuilder

variable {α : Type} [DecidableEq α]

/-- The targets of the edges leaving `n`, in connection-list order:
`workflow.connections.filter(c => c.from === nodeId)` mapped to `c.to`. -/
def successors (conns : List (α × α)) (n : α) : List α :=
  (conns.filter (fun c => c.1 = n)).map (fun c => c.2)

mutual
/-- The recursive `dfs(nodeId)` of `detectWorkflowLoops`: `visited` and the
recursion stack are threaded explicitly, fuel makes the recursion structural
(the chosen fuel is proven sufficient below). -/
def dfsVisit (conns : List (α × α)) : Nat → α → List α → List α → Option (Bool × List α)
  | 0, _, _, _ => none
  | f + 1, n, visited, stack =>
    if n ∈ stack then some (true, visited)
    else if n ∈ visited then some (false, visited)
    else dfsFold conns f (successors conns n) (n :: visited) (n :: stack)

/-- The `for (const conn of connections)` loop inside `dfs`: visit each
successor, short-circuiting on a detected cycle. -/
def dfsFold (conns : List (α × α)) : Nat → List α → List α → List α → Option (Bool × List α)
  | _, [], visited, _ => some (false, visited)
  | f, m :: ms, visited, stack =>
    match dfsVisit conns f m visited stack with
    | none => none
    | some (true, v) => some (true, v)
    | some (false, v) => dfsFold conns f ms v stack
end

/-- The top-level loop of `detectWorkflowLoops` over the node list, sharing
the visited set across roots. -/
def loopsGo (conns : List (α × α)) (fuel : Nat) : List α → List α → Option Bool
  | [], _ => some false
  | n :: ns, visited =>
    if n ∈ visited then loopsGo conns fuel ns visited
    else
      match dfsVisit conns fuel n visited [] with
      | none => none
      | some (true, _) => some true
      | some (false, v) => loopsGo conns fuel ns v

/-- Fuel bound for the DFS: one more than the number of (node or edge
endpoint) occurrences, an overapproximation of the number of distinct
vertices. -/
def workflowFuel (nodes : List α) (conns : List (α × α)) : Nat :=
  (nodes ++ conns.map Prod.fst ++ conns.map Prod.snd).length + 1

/-- `ToolFlowBuilder.detectWorkflowLoops`: DFS with a recursion stack over
the connection list, rooted at every node. -/
def detectWorkflowLoops (nodes : List α) (conns : List (α × α)) : Bool :=
  (loopsGo conns (workflowFuel nodes conns) nodes []).getD false

/-- One directed edge of the connection list, as a relation. -/
def edgeStep (conns : List (α × α)) (a b : α) : Prop := (a, b) ∈ conns

/-- The connection list has a cycle: some vertex reaches itself in at least
one step. -/
def hasCycle (conns : List (α × α)) : Prop :=
  ∃ v, Relation.TransGen (edgeStep conns) v v

/-- Completed vertices are closed under edges, except on the stack (part of
the DFS completeness invariant). -/
def AlmostClosed (conns : List (α × α)) (V S : List α) : Prop :=
  ∀ v ∈ V, v ∉ S → ∀ m, edgeStep conns v m → m ∈ V

/-- A finished vertex cannot reach any vertex still on the stack. -/
def NoEscape (conns : List (α × α)) (V S : List α) : Prop :=
  ∀ v ∈ V, v ∉ S → ∀ s ∈ S, ¬ Relation.ReflTransGen (edgeStep conns) v s

/-- No finished vertex lies on a cycle. -/
def CycleFree (conns : List (α × α)) (V S : List α) : Prop :=
  ∀ v ∈ V, v ∉ S → ¬ Relation.TransGen (edgeStep conns) v v

/-- The full DFS invariant on false-returning runs. -/
def DfsInv (conns : List (α × α)) (V S : List α) : Prop :=
  AlmostClosed conns V S ∧ NoEscape conns V S ∧ CycleFree conns V S

/-- A node as seen by `validateWorkflow` and `detectDuplicateActions` in the
exported workflow: optional arrays model fields that may be absent. -/
structure VNode where
  id : String
  type : String
  inputLabels : Option (List String)
  fileInputs : Option (List String)
deriving DecidableEq

/-- The in-place `node.inputLabels?.sort()` mutation performed while
computing a node's duplicate-detection key. -/
def sortVNode (n : VNode) : VNode :=
  { n with inputLabels := n.inputLabels.map jsSortStrings }

/-- The key `type + ":" + (inputLabels?.sort().join(',') || '')` of
`detectDuplicateActions`. -/
def vnodeKey (n : VNode) : String :=
  n.type ++ ":" ++
    (match n.inputLabels with
     | some ls => String.intercalate "," (jsSortStrings ls)
     | none => "")

/-- The loop of `detectDuplicateActions`: returns on the first duplicate key
(leaving the remaining nodes untouched); the traversed nodes keep the
in-place sort of their `inputLabels`. -/
def detectDuplicateActionsAux (seen : List String) : List VNode → Bool × List VNode
  | [] => (false, [])
  | n :: ns =>
    if seen.contains (vnodeKey n) then (true, sortVNode n :: ns)
    else
      ((detectDuplicateActionsAux (vnodeKey n :: seen) ns).1,
        sortVNode n :: (detectDuplicateActionsAux (vnodeKey n :: seen) ns).2)

/-- `ToolFlowBuilder.detectDuplicateActions`, returning both the boolean
result and the node list after the side effect on `inputLabels`. -/
def detectDuplicateActions (nodes : List VNode) : Bool × List VNode :=
  detectDuplicateActionsAux [] nodes

/-- The workflow record consumed by validation. -/
structure VWorkflow where
  nodes : List VNode
  connections : List (String × String)
deriving DecidableEq

/-- Whether a node has any file input or any input label, the
`nodesWithInputs` filter of `validateWorkflow`. -/
def nodeHasInputs (n : VNode) : Bool :=
  (match n.fileInputs with
   | some l => decide (l.length > 0)
   | none => false) ||
  (match n.inputLabels with
   | some l => decide (l.length > 0)
   | none => false)

/-- `ToolFlowBuilder.validateWorkflow`: requires uploaded files and at least
one output entry; with zero nodes that suffices, otherwise some node must
have inputs and the loop and duplicate checks must pass. -/
def validateWorkflow (files outputs : List String) (w : VWorkflow) : Bool :=
  if files.length = 0 then false
  else if outputs.length = 0 then false
  else if w.nodes.length = 0 then true
  else if (w.nodes.filter nodeHasInputs).length = 0 then false
  else
    let hasLoops := detectWorkflowLoops (w.nodes.map VNode.id) w.connections
    let hasDuplicates := (detectDuplicateActions w.nodes).1
    !hasLoops && !hasDuplicates

end ToolFlowBuilder

/-! ### `WorkflowEngine` (execution orchestrator) -/

namespace WorkflowEngine

/-- A node as the engine consumes it (only `id` and `type` feed the engine's
own bookkeeping; everything else is read by the processing collaborator). -/
structure WNode where
  id : String
  type : String
deriving DecidableEq

/-- The workflow handed to `executeWorkflow`. -/
structure WWorkflow where
  nodes : List WNode
  connections : List (String × String)
deriving DecidableEq

/-- State of the topological sort: the `temp` recursion set, the `visited`
set and the accumulated `sorted` list (built by `unshift`). -/
structure TopoSt where
  temp : List String
  visited : List String
  sorted : List WNode
deriving DecidableEq

mutual
/-- The recursive `visit(nodeId)` of `WorkflowEngine.topologicalSort`; a
cycle in `temp` raises the circular-dependency error.  Fuel exhaustion
returns the same error; the chosen fuel is large enough that this branch is
never taken on any run the sort itself terminates on. -/
def topoVisit (nodes : List WNode) (conns : List (String × String)) :
    Nat → String → TopoSt → Except String TopoSt
  | 0, _, _ => Except.error "Circular dependency detected in workflow"
  | f + 1, nodeId, st =>
    if nodeId ∈ st.temp then Except.error "Circular dependency detected in workflow"
    else if nodeId ∈ st.visited then Except.ok st
    else
      let dependents := ((conns.filter (fun c => c.1 = nodeId)).map (fun c => c.2))
      match topoFold nodes conns f dependents { st with temp := nodeId :: st.temp } with
      | Except.error e => Except.error e
      | Except.ok st2 =>
        let st3 : TopoSt :=
          { temp := st2.temp.erase nodeId, visited := nodeId :: st2.visited,
            sorted := st2.sorted }
        match nodes.find? (fun n => n.id = nodeId) with
        | some node => Except.ok { st3 with sorted := node :: st3.sorted }
        | none => Except.ok st3

/-- The `dependents.forEach(depId => visit(depId))` loop: exceptions
propagate. -/
def topoFold (nodes : List WNode) (conns : List (String × String)) :
    Nat → List String → TopoSt → Except String TopoSt
  | _, [], st => Except.ok st
  | f, d :: ds, st =>
    match topoVisit nodes conns f d st with
    | Except.error e => Except.error e
    | Except.ok st' => topoFold nodes conns f ds st'
end

/-- `WorkflowEngine.topologicalSort`: visit the nodes without incoming
edges, then any remaining node (an already visited id returns immediately),
collecting the sorted node list or the circular-dependency error. -/
def topologicalSort (w : WWorkflow) : Except String (List WNode) :=
  let fuel := (w.nodes.map WNode.id ++ w.connections.map Prod.fst ++
    w.connections.map Prod.snd).length + 1
  let roots := (w.nodes.filter
    (fun node => ¬ w.connections.any (fun c => c.2 = node.id))).map WNode.id
  match topoFold w.nodes w.connections fuel (roots ++ w.nodes.map WNode.id)
      ⟨[], [], []⟩ with
  | Except.error e => Except.error e
  | Except.ok st => Except.ok st.sorted

/-- What the opaque processing collaborator hands back for one node
(`openAIService.processFile` through `processNodeData`). -/
structure ProcOut where
  success : Bool
  result : String
  fileName : String
deriving DecidableEq

/-- One entry of `executionResults`. -/
structure ExecResult where
  nodeId : String
  nodeType : String
  systemName : String
  content : String
  contentType : String
  size : Nat
  success : Bool
  errorMsg : Option String
  executedAt : String
deriving DecidableEq

/-- `WorkflowEngine.getOutputContentType`. -/
def getOutputContentType (nodeType : String) : String :=
  if nodeType = "audio2text" then "text/plain"
  else if nodeType = "video2audio" then "audio/wav"
  else if nodeType = "pdf2text" then "text/plain"
  else if nodeType = "image2text" then "text/plain"
  else if nodeType = "webscraper" then "text/plain"
  else if nodeType = "summarizer" then "text/plain"
  else if nodeType = "translator" then "text/plain"
  else if nodeType = "analyzer" then "text/plain"
  else if nodeType = "text2pdf" then "application/pdf"
  else if nodeType = "text2template" then "text/html"
  else "text/plain"

/-- The result record `executeNode` appends on success. -/
def successRecord (node : WNode) (r : ProcOut) (now : String) : ExecResult :=
  { nodeId := node.id, nodeType := node.type, systemName := r.fileName,
    content := r.result, contentType := getOutputContentType node.type,
    size := r.result.length, success := r.success, errorMsg := none,
    executedAt := now }

/-- The error record `executeNode` appends before re-throwing. -/
def errorRecord (node : WNode) (e : String) (now : String) : ExecResult :=
  { nodeId := node.id, nodeType := node.type,
    systemName := node.type ++ "_error.txt", content := "Error: " ++ e,
    contentType := "text/plain", size := e.length, success := false,
    errorMsg := some e, executedAt := now }

/-- A processing collaborator: given the node and the results recorded so
far (which `getNodeInputData` reads for upstream content), it either
produces an output or throws. -/
abbrev Processor := WNode → List ExecResult → Except String ProcOut

/-- The `for (const node of sortedNodes)` loop of `executeWorkflow`,
together with `executeNode`'s bookkeeping: on success append the result
record and continue; on a thrown error append the error record and stop,
reporting the error. -/
def runNodes (proc : Processor) (now : String) :
    List WNode → List ExecResult → List ExecResult × Option String
  | [], acc => (acc, none)
  | n :: ns, acc =>
    match proc n acc with
    | Except.ok r => runNodes proc now ns (acc ++ [successRecord n r now])
    | Except.error e => (acc ++ [errorRecord n e now], some e)

/-- The engine state relevant to execution. -/
structure Engine where
  executionResults : List ExecResult
  isExecuting : Bool
deriving DecidableEq

/-- `WorkflowEngine.executeWorkflow`: fail fast when already executing;
otherwise set the guard, reset the results, topologically sort, run the
nodes in order, and always clear the guard in the `finally`. -/
def executeWorkflow (proc : Processor) (now : String) (w : WWorkflow)
    (eng : Engine) : Except String (List ExecResult) × Engine :=
  if eng.isExecuting then
    (Except.error "Workflow execution already in progress", eng)
  else
    match topologicalSort w with
    | Except.error e => (Except.error e, { executionResults := [], isExecuting := false })
    | Except.ok sortedNodes =>
      match runNodes proc now sortedNodes [] with
      | (results, none) =>
        (Except.ok results, { executionResults := results, isExecuting := false })
      | (results, some e) =>
        (Except.error e, { executionResults := results, isExecuting := false })

end WorkflowEngine


end TFB

/-! ## Supporting lemmas -/

namespace TFB

/-- Totality of the code-point comparison. -/
lemma charListLe_total : ∀ as bs, charListLe as bs = true ∨ charListLe bs as = true := by
  intro as
  induction as with
  | nil => intro bs; left; rfl
  | cons a as ih =>
    intro bs
    cases bs with
    | nil => right; rfl
    | cons b bs =>
      rcases Nat.lt_trichotomy a.toNat b.toNat with h | h | h
      · left; simp [charListLe, h]
      · have h1 : ¬ a.toNat < b.toNat := by omega
        have h2 : ¬ b.toNat < a.toNat := by omega
        rcases ih bs with ih1 | ih1
        · left; simp [charListLe, h1, h2, ih1]
        · right; simp [charListLe, h1, h2, ih1]
      · right; simp [charListLe, h]

/-- Transitivity of the code-point comparison. -/
lemma charListLe_trans :
    ∀ as bs cs, charListLe as bs = true → charListLe bs cs = true →
      charListLe as cs = true := by
  intro as
  induction as with
  | nil => intro bs cs _ _; rfl
  | cons a as ih =>
    intro bs cs hab hbc
    cases bs with
    | nil => simp [charListLe] at hab
    | cons b bs =>
      cases cs with
      | nil => simp [charListLe] at hbc
      | cons c cs =>
        simp only [charListLe] at hab hbc ⊢
        by_cases g1 : a.toNat < b.toNat
        · by_cases g3 : b.toNat < c.toNat
          · rw [if_pos (show a.toNat < c.toNat by omega)]
          · by_cases g4 : c.toNat < b.toNat
            · rw [if_neg g3, if_pos g4] at hbc
              exact absurd hbc (by simp)
            · rw [if_pos (show a.toNat < c.toNat by omega)]
        · by_cases g2 : b.toNat < a.toNat
          · rw [if_neg g1, if_pos g2] at hab
            exact absurd hab (by simp)
          · rw [if_neg g1, if_neg g2] at hab
            by_cases g3 : b.toNat < c.toNat
            · rw [if_pos (show a.toNat < c.toNat by omega)]
            · by_cases g4 : c.toNat < b.toNat
              · rw [if_neg g3, if_pos g4] at hbc
                exact absurd hbc (by simp)
              · rw [if_neg g3, if_neg g4] at hbc
                rw [if_neg (show ¬ a.toNat < c.toNat by omega),
                  if_neg (show ¬ c.toNat < a.toNat by omega)]
                exact ih bs cs hab hbc

/-- Antisymmetry of the code-point comparison. -/
lemma charListLe_antisymm :
    ∀ as bs, charListLe as bs = true → charListLe bs as = true → as = bs := by
  intro as
  induction as with
  | nil =>
    intro bs _ hba
    cases bs with
    | nil => rfl
    | cons b bs => simp [charListLe] at hba
  | cons a as ih =>
    intro bs hab hba
    cases bs with
    | nil => simp [charListLe] at hab
    | cons b bs =>
      simp only [charListLe] at hab hba
      by_cases g1 : a.toNat < b.toNat
      · rw [if_neg (show ¬ b.toNat < a.toNat by omega), if_pos g1] at hba
        exact absurd hba (by simp)
      · by_cases g2 : b.toNat < a.toNat
        · rw [if_neg g1, if_pos g2] at hab
          exact absurd hab (by simp)
        · rw [if_neg g1, if_neg g2] at hab
          rw [if_neg g2, if_neg g1] at hba
          have hc : a = b := Char.ext (UInt32.ext (show a.toNat = b.toNat by omega))
          rw [hc, ih bs hab hba]

/-- Two permutation-equal string lists have the same JavaScript sort. -/
lemma jsSortStrings_perm_eq {l1 l2 : List String} (h : l1.Perm l2) :
    jsSortStrings l1 = jsSortStrings l2 := by
  haveI ht : IsTotal String (fun a b => jsStrLe a b = true) :=
    ⟨fun a b => charListLe_total a.data b.data⟩
  haveI htr : IsTrans String (fun a b => jsStrLe a b = true) :=
    ⟨fun a b c => charListLe_trans a.data b.data c.data⟩
  haveI han : IsAntisymm String (fun a b => jsStrLe a b = true) :=
    ⟨fun a b hab hba => String.toList_inj.mp (charListLe_antisymm a.data b.data hab hba)⟩
  exact List.eq_of_perm_of_sorted
    (((List.perm_insertionSort _ l1).trans h).trans (List.perm_insertionSort _ l2).symm)
    (List.sorted_insertionSort _ l1) (List.sorted_insertionSort _ l2)

/-- Membership in the deduplication pass. -/
lemma mem_dedupAux : ∀ xs seen x, x ∈ dedupAux seen xs ↔ x ∈ xs ∧ x ∉ seen := by
  intro xs
  induction xs with
  | nil => intro seen x; simp [dedupAux]
  | cons y ys ih =>
    intro seen x
    by_cases hy : y ∈ seen
    · rw [dedupAux, if_pos hy, ih]
      constructor
      · rintro ⟨h1, h2⟩; exact ⟨List.mem_cons_of_mem _ h1, h2⟩
      · rintro ⟨h1, h2⟩
        rcases List.mem_cons.mp h1 with rfl | h1
        · exact absurd hy h2
        · exact ⟨h1, h2⟩
    · rw [dedupAux, if_neg hy]
      by_cases hxy : x = y
      · subst hxy; simp [hy]
      · simp only [List.mem_cons, hxy, false_or]
        rw [ih]
        simp only [List.mem_cons, hxy, false_or]

/-- Membership in `jsSetDedup`. -/
lemma mem_jsSetDedup (l : List String) (x : String) : x ∈ jsSetDedup l ↔ x ∈ l := by
  rw [jsSetDedup, mem_dedupAux]; simp

end TFB

namespace TFB.NodeDataManager

/-- Each of the four rejection conditions forces `validateNodeInput` to
refuse the label. -/
lemma validateNodeInput_reject {node : NodeRec} {label : String}
    (hbad : isInputTypeValid node.type label = false ∨
      maxInputsReached (getInputRules node.type) node.inputLabels.length = true ∨
      label ∈ node.inputLabels ∨
      (getNodePromptRequirement node.type = "mandatory" ∧
        hasValidUserPrompt node = false)) :
    (validateNodeInput node label).canAccept = false := by
  unfold validateNodeInput
  by_cases c1 : isInputTypeValid node.type label = true
  · rw [if_neg (by simp [c1])]
    by_cases c2 : maxInputsReached (getInputRules node.type) node.inputLabels.length = true
    · rw [if_pos c2]
    · rw [if_neg c2]
      by_cases c3 : node.inputLabels.contains label = true
      · rw [if_pos c3]
      · rw [if_neg c3]
        by_cases c4 : getNodePromptRequirement node.type = "mandatory" ∧
          ¬ (hasValidUserPrompt node = true)
        · rw [if_pos c4]
        · exfalso
          rcases hbad with hb | hb | hb | hb
          · rw [hb] at c1; exact absurd c1 (by simp)
          · exact c2 hb
          · exact c3 (by simpa using hb)
          · exact c4 ⟨hb.1, by simp [hb.2]⟩
  · rw [if_pos (by simp [c1])]

end TFB.NodeDataManager

/-! ## Claims -/

namespace TFB

open OutputNaming NodeDataManager CascadingDeleteManager ToolFlowBuilder WorkflowEngine

/-- C1 (counterexample): the claim asserts that the combined output name of a
combined-flow tool is always built from the sorted input labels, independent
of input order.  `NodeDataManager.outputCombinedFiles` — the generator used
for the combined-flow node types `join` and `analyzer` — concatenates the
labels in stored order: on `["B", "A"]` it produces `BA-joi.txt`, which
differs from what the reversed input order produces, so the result does
depend on the input order and is not the sorted concatenation. -/
theorem C1_outputCombinedFiles_unsorted :
    outputCombinedFiles ["B", "A"] "-joi.txt" = ["BA-joi.txt"] ∧
    outputCombinedFiles ["A", "B"] "-joi.txt" = ["AB-joi.txt"] ∧
    (["BA-joi.txt"] : List String) ≠ ["AB-joi.txt"] := by
  refine ⟨by decide, by decide, by decide⟩

/-- C1 (amended): `OutputNaming.generateProcessingOutput`, the combined
many-to-one naming path, sorts the input labels before concatenation, so its
result is invariant under reordering the inputs; in particular `["B", "A"]`
into a summarizer (combined suffix `-sum`, extension `.txt`) yields
`AB-sum.txt`.  The unsorted behavior of `NodeDataManager.outputCombinedFiles`
is recorded by the counterexample. -/
theorem C1_generateProcessingOutput_sorted :
    (∀ (st : ConflictSt) (l1 l2 : List String) (toolType : String) (params : Params),
        l1.Perm l2 →
        generateProcessingOutput st l1 toolType params =
          generateProcessingOutput st l2 toolType params) ∧
    (generateProcessingOutput [] ["B", "A"] "summarizer" {}).2 = ["AB-sum.txt"] := by
  constructor
  · intro st l1 l2 toolType params h
    unfold generateProcessingOutput
    rw [jsSortStrings_perm_eq h]
  · decide

/-- C1 (witness): the order-invariance applied at the concrete pair of
orderings of the spec's example. -/
theorem C1_witness :
    generateProcessingOutput [] ["B", "A"] "summarizer" {} =
      generateProcessingOutput [] ["A", "B"] "summarizer" {} :=
  C1_generateProcessingOutput_sorted.1 [] ["B", "A"] ["A", "B"] "summarizer" {}
    (by decide)

/-- C2 (counterexample): the claim fails on the code in two independent
ways.  First, it reads the base name of the deleted label as "L minus its
extension" while the code only strips a first `".txt"`: deleting the label
`A.pdf` compares against the base name `A.pdf`, not `A`, so the label `A`
satisfies the claim's condition yet is not in the code's cascading list.
Second, the claim draws candidates from all three label stores, but the
output-zone branch of `getAllLabelsInSystem` is dead (the wired `OutputZone`
has no `getAllLabels`), so an output-zone-only label such as `AB-sum.txt`
satisfies the claim's condition when `A.txt` is deleted yet is not in the
code's cascading list either. -/
theorem C2_counterexample :
    (("A" ∈ (["A"] ++ ["A.txt"] ++ ["A.pdf"] : List String) ∧
        ("A" : String) ≠ "A.pdf" ∧
        jsIncludes (specMinusExtension "A") (specMinusExtension "A.pdf") = true) ∧
      "A" ∉ (analyzeDeletionImpact ⟨["A"], ["A.txt"], ["A.pdf"]⟩ [] [] "A.pdf").cascadingDeletes) ∧
    (("AB-sum.txt" ∈ (([] : List String) ++ [] ++ ["AB-sum.txt"]) ∧
        ("AB-sum.txt" : String) ≠ "A.txt" ∧
        jsIncludes (specMinusExtension "AB-sum.txt") (specMinusExtension "A.txt") = true) ∧
      "AB-sum.txt" ∉
        (analyzeDeletionImpact ⟨[], [], ["AB-sum.txt"]⟩ [] [] "A.txt").cascadingDeletes) := by
  refine ⟨⟨by decide, by decide⟩, ⟨by decide, by decide⟩⟩

/-- C2 (amended): the cascading-delete list consists of exactly those labels
of the union of the input-file and text-file stores — the output zone never
contributes, its branch of `getAllLabelsInSystem` being dead — other than
the deleted label itself, whose name with a trailing
`.txt`/`.pdf`/`.docx`/`.xlsx` extension stripped contains, as a substring,
the deleted label with a first `".txt"` removed (other extensions are not
removed from the deleted label).  Deleting a base label with no derived
files and no dependent nodes yields an impact with zero affected nodes and
zero cascading labels. -/
theorem C2_cascadingDeletes_characterization :
    (∀ (stores : Stores) (nodes : List NodeDataManager.NodeRec)
        (conns : List (String × String)) (L l : String),
        l ∈ (analyzeDeletionImpact stores nodes conns L).cascadingDeletes ↔
          l ∈ stores.inputFileLabels ++ stores.textFileLabels ∧
          l ≠ L ∧
          jsIncludes (stripKnownExt l) (jsReplaceFirst L ".txt" "") = true) ∧
    ((analyzeDeletionImpact ⟨["A", "B"], [], []⟩ [] [] "A").affectedNodes = [] ∧
      (analyzeDeletionImpact ⟨["A", "B"], [], []⟩ [] [] "A").cascadingDeletes = []) := by
  constructor
  · intro stores nodes conns L l
    show l ∈ (getAllLabelsInSystem stores).filter _ ↔ _
    rw [List.mem_filter, getAllLabelsInSystem, mem_jsSetDedup]
    constructor
    · rintro ⟨h1, h2⟩
      split_ifs at h2 with hL
      exact ⟨h1, hL, h2⟩
    · rintro ⟨h1, h2, h3⟩
      refine ⟨h1, ?_⟩
      rw [if_neg h2]
      exact h3
  · exact ⟨by decide, by decide⟩

/-- C3: a node using the deleted label appears in the impact's affected
list, and it is marked for full deletion exactly when the inputs remaining
after the label's removal fall below the node type's minimum; in particular
a `join` node (minimum 2) holding exactly the two inputs `A.txt`, `B.txt`
is marked deleted when `A` is removed. -/
theorem C3_analyzeNodeDeletion_marks :
    (∀ (node : NodeDataManager.NodeRec) (removedLabel : String),
        (analyzeNodeDeletion node removedLabel).willBeDeleted = true ↔
          (node.inputLabels.filter
              (fun input => ¬ (jsReplaceFirst input ".txt" "" = removedLabel))).length <
            (CascadingDeleteManager.getInputRules node.type).minInputs) ∧
    (∀ (stores : Stores) (nodes : List NodeDataManager.NodeRec)
        (conns : List (String × String)) (L : String)
        (node : NodeDataManager.NodeRec),
        node ∈ nodes → nodeUsesLabel node (jsReplaceFirst L ".txt" "") = true →
        analyzeNodeDeletion node (jsReplaceFirst L ".txt" "") ∈
          (analyzeDeletionImpact stores nodes conns L).affectedNodes) ∧
    ((analyzeNodeDeletion ⟨"n1", "join", ["A.txt", "B.txt"], [], ""⟩ "A").willBeDeleted = true) := by
  refine ⟨?_, ?_, by decide⟩
  · intro node removedLabel
    simp [analyzeNodeDeletion]
  · intro stores nodes conns L node hmem huses
    show _ ∈ (nodes.filter _).map _
    refine List.mem_map.mpr ⟨node, ?_, rfl⟩
    exact List.mem_filter.mpr ⟨hmem, huses⟩

/-- C3 (witness): the affected-list membership applied at a concrete store
and node. -/
theorem C3_witness :
    analyzeNodeDeletion ⟨"n1", "join", ["A.txt", "B.txt"], [], ""⟩
        (jsReplaceFirst "A.txt" ".txt" "") ∈
      (analyzeDeletionImpact ⟨["A"], ["A.txt", "B.txt"], []⟩
          [⟨"n1", "join", ["A.txt", "B.txt"], [], ""⟩] [] "A.txt").affectedNodes :=
  C3_analyzeNodeDeletion_marks.2.1 ⟨["A"], ["A.txt", "B.txt"], []⟩
    [⟨"n1", "join", ["A.txt", "B.txt"], [], ""⟩] [] "A.txt"
    ⟨"n1", "join", ["A.txt", "B.txt"], [], ""⟩ (by decide) (by decide)

/-- C4: if the node exists and the new label fails any of the four
validation checks — unaccepted file extension, maximum input count reached,
label already present, or a missing mandatory prompt — then `addLabelToNode`
returns `false`, emits exactly the validation-failed event, and leaves the
node store unchanged. -/
theorem C4_addLabelToNode_rejects :
    ∀ (nodes : List NodeDataManager.NodeRec) (nodeId label : String)
      (node : NodeDataManager.NodeRec),
      getNodeById nodes nodeId = some node →
      (isInputTypeValid node.type label = false ∨
        maxInputsReached (NodeDataManager.getInputRules node.type)
          node.inputLabels.length = true ∨
        label ∈ node.inputLabels ∨
        (getNodePromptRequirement node.type = "mandatory" ∧
          hasValidUserPrompt node = false)) →
      addLabelToNode nodes nodeId label =
        (false, nodes,
          [Ev.validationFailed nodeId label (validateNodeInput node label).message]) := by
  intro nodes nodeId label node hfind hbad
  have hcan : (validateNodeInput node label).canAccept = false :=
    validateNodeInput_reject hbad
  unfold addLabelToNode
  rw [hfind]
  simp [hcan]

/-- C4 (witness): a `join` node rejects a `.pdf` label (unaccepted
extension) with no change to the store. -/
theorem C4_witness :
    addLabelToNode [⟨"n1", "join", ["A.txt"], [], ""⟩] "n1" "B.pdf" =
      (false, [⟨"n1", "join", ["A.txt"], [], ""⟩],
        [Ev.validationFailed "n1" "B.pdf"
          (validateNodeInput ⟨"n1", "join", ["A.txt"], [], ""⟩ "B.pdf").message]) :=
  C4_addLabelToNode_rejects [⟨"n1", "join", ["A.txt"], [], ""⟩] "n1" "B.pdf"
    ⟨"n1", "join", ["A.txt"], [], ""⟩ (by decide) (Or.inl (by decide))

/-- C8 (counterexample): the claim grants validity to any zero-node workflow
as soon as one output entry exists, but `validateWorkflow` first requires at
least one uploaded file: with no files, one output entry and zero nodes it
returns `false`. -/
theorem C8_counterexample :
    validateWorkflow [] ["Output1"] ⟨[], []⟩ = false := by decide

/-- C8 (amended): a workflow with zero nodes is judged valid by
`validateWorkflow` whenever at least one file is uploaded and at least one
output entry exists (no processing node is required). -/
theorem C8_validateWorkflow_zero_nodes :
    ∀ (files outputs : List String) (w : VWorkflow),
      files ≠ [] → outputs ≠ [] → w.nodes = [] →
      validateWorkflow files outputs w = true := by
  intro files outputs w hf ho hn
  unfold validateWorkflow
  rw [if_neg (by simpa using hf), if_neg (by simpa using ho), if_pos (by simp [hn])]

/-- C8 (witness): the zero-node validity applied at one file and one output
entry. -/
theorem C8_witness : validateWorkflow ["report.pdf"] ["Output1"] ⟨[], []⟩ = true :=
  C8_validateWorkflow_zero_nodes ["report.pdf"] ["Output1"] ⟨[], []⟩
    (by decide) (by decide) rfl

/-- C9 (counterexample): the claim says every node with a non-null
`inputLabels` array is sorted in place by `detectDuplicateActions`.  The
loop returns on the first duplicate key, so nodes after that point are not
touched: with two duplicate summarizers followed by a join whose labels are
out of order, the join node keeps its unsorted `["B.txt", "A.txt"]`. -/
theorem C9_counterexample :
    (detectDuplicateActions
        [⟨"n1", "summarizer", some ["A.txt"], none⟩,
         ⟨"n2", "summarizer", some ["A.txt"], none⟩,
         ⟨"n3", "join", some ["B.txt", "A.txt"], none⟩]).1 = true ∧
    (detectDuplicateActions
        [⟨"n1", "summarizer", some ["A.txt"], none⟩,
         ⟨"n2", "summarizer", some ["A.txt"], none⟩,
         ⟨"n3", "join", some ["B.txt", "A.txt"], none⟩]).2.getLast? =
      some ⟨"n3", "join", some ["B.txt", "A.txt"], none⟩ ∧
    jsSortStrings ["B.txt", "A.txt"] ≠ ["B.txt", "A.txt"] := by
  refine ⟨by decide, by decide, by decide⟩

/-- C9 (amended): `detectDuplicateActions` is indeed not read-only — it
sorts each visited node's non-null `inputLabels` array in place — but only
up to the node where the first duplicate is detected.  When no duplicate is
found, every node of the workflow comes out with its `inputLabels` sorted. -/
theorem C9_detectDuplicateActions_sorts :
    ∀ (nodes : List VNode),
      (detectDuplicateActions nodes).1 = false →
      (detectDuplicateActions nodes).2 = nodes.map sortVNode := by
  have aux : ∀ (nodes : List VNode) (seen : List String),
      (detectDuplicateActionsAux seen nodes).1 = false →
      (detectDuplicateActionsAux seen nodes).2 = nodes.map sortVNode := by
    intro nodes
    induction nodes with
    | nil => intro seen _; rfl
    | cons n ns ih =>
      intro seen h
      by_cases hk : seen.contains (vnodeKey n) = true
      · rw [detectDuplicateActionsAux, if_pos hk] at h
        exact absurd h (by simp)
      · rw [detectDuplicateActionsAux, if_neg hk] at h ⊢
        simp only [List.map_cons, List.cons.injEq]
        exact ⟨trivial, ih _ h⟩
  intro nodes h
  exact aux nodes [] h

/-- C9 (witness): the in-place sort applied to a duplicate-free workflow
with out-of-order labels. -/
theorem C9_witness :
    (detectDuplicateActions [⟨"n3", "join", some ["B.txt", "A.txt"], none⟩]).2 =
      [⟨"n3", "join", some ["A.txt", "B.txt"], none⟩] := by
  rw [C9_detectDuplicateActions_sorts [⟨"n3", "join", some ["B.txt", "A.txt"], none⟩]
    (by decide)]
  decide

end TFB

namespace TFB.WorkflowEngine

/-- Running a node list that begins with an error-free prefix continues from
the results that prefix accumulated. -/
lemma runNodes_append_none (proc : Processor) (now : String) :
    ∀ (xs ys : List WNode) (acc r : List ExecResult),
      runNodes proc now xs acc = (r, none) →
      runNodes proc now (xs ++ ys) acc = runNodes proc now ys r := by
  intro xs
  induction xs with
  | nil =>
    intro ys acc r h
    rw [runNodes] at h
    cases h
    rfl
  | cons x xs ih =>
    intro ys acc r h
    rw [runNodes] at h
    rw [List.cons_append, runNodes]
    cases hp : proc x acc with
    | ok pr =>
      rw [hp] at h
      exact ih ys _ r h
    | error e =>
      rw [hp] at h
      exact absurd (congrArg Prod.snd h) (by simp)

end TFB.WorkflowEngine

namespace TFB

/-- C6: when the processing of a node throws during `executeWorkflow`, the
error record for that node (success `false`, the message, the timestamp) is
appended after the records of the already executed prefix, the error is
propagated to the caller, and the nodes after the failing one in the
topologically sorted order contribute nothing to the results. -/
theorem C6_executeWorkflow_node_failure :
    ∀ (proc : WorkflowEngine.Processor) (now : String)
      (w : WorkflowEngine.WWorkflow) (eng : WorkflowEngine.Engine)
      (pre : List WorkflowEngine.WNode) (n : WorkflowEngine.WNode)
      (post : List WorkflowEngine.WNode) (e : String),
      eng.isExecuting = false →
      WorkflowEngine.topologicalSort w = Except.ok (pre ++ n :: post) →
      (WorkflowEngine.runNodes proc now pre []).2 = none →
      proc n (WorkflowEngine.runNodes proc now pre []).1 = Except.error e →
      WorkflowEngine.executeWorkflow proc now w eng =
        (Except.error e,
          { executionResults := (WorkflowEngine.runNodes proc now pre []).1 ++
              [WorkflowEngine.errorRecord n e now],
            isExecuting := false }) := by
  intro proc now w eng pre n post e hidle hsort hpre hfail
  have hpre' : WorkflowEngine.runNodes proc now pre [] =
      ((WorkflowEngine.runNodes proc now pre []).1, none) := by
    rw [← hpre]
  have hrun : WorkflowEngine.runNodes proc now (pre ++ n :: post) [] =
      ((WorkflowEngine.runNodes proc now pre []).1 ++
        [WorkflowEngine.errorRecord n e now], some e) := by
    rw [WorkflowEngine.runNodes_append_none proc now pre (n :: post) [] _ hpre']
    rw [WorkflowEngine.runNodes, hfail]
  unfold WorkflowEngine.executeWorkflow
  rw [if_neg (by simp [hidle]), hsort]
  dsimp only
  rw [hrun]

/-- C6 (witness): a single-node workflow whose processor throws `boom`
yields exactly the propagated error and the single error record. -/
theorem C6_witness :
    WorkflowEngine.executeWorkflow (fun _ _ => Except.error "boom") "t0"
        ⟨[⟨"X", "summarizer"⟩], []⟩ ⟨[], false⟩ =
      (Except.error "boom",
        { executionResults := [WorkflowEngine.errorRecord ⟨"X", "summarizer"⟩ "boom" "t0"],
          isExecuting := false }) :=
  C6_executeWorkflow_node_failure (fun _ _ => Except.error "boom") "t0"
    ⟨[⟨"X", "summarizer"⟩], []⟩ ⟨[], false⟩ [] ⟨"X", "summarizer"⟩ [] "boom"
    rfl (by simp [WorkflowEngine.topologicalSort, WorkflowEngine.topoFold,
      WorkflowEngine.topoVisit]) rfl rfl

/-- C10: whenever `executeWorkflow` actually starts (it was not already
executing), the engine it leaves behind has `isExecuting = false`, whether
the run returned normally, a node's processing threw, or the topological
sort raised the circular-dependency error, so a later execution attempt is
never blocked by a stale guard. -/
theorem C10_executeWorkflow_clears_guard :
    ∀ (proc : WorkflowEngine.Processor) (now : String)
      (w : WorkflowEngine.WWorkflow) (eng : WorkflowEngine.Engine),
      eng.isExecuting = false →
      ((WorkflowEngine.executeWorkflow proc now w eng).2).isExecuting = false := by
  intro proc now w eng hidle
  unfold WorkflowEngine.executeWorkflow
  rw [if_neg (by simp [hidle])]
  cases WorkflowEngine.topologicalSort w with
  | error e => rfl
  | ok sorted =>
    rcases hr : WorkflowEngine.runNodes proc now sorted [] with ⟨results, err⟩
    cases err <;> simp [hr]

/-- C10 (witness): the guard is clear after a run that throws. -/
theorem C10_witness :
    ((WorkflowEngine.executeWorkflow (fun _ _ => Except.error "boom") "t0"
        ⟨[⟨"X", "summarizer"⟩], []⟩ ⟨[], false⟩).2).isExecuting = false :=
  C10_executeWorkflow_clears_guard (fun _ _ => Except.error "boom") "t0"
    ⟨[⟨"X", "summarizer"⟩], []⟩ ⟨[], false⟩ rfl

end TFB

namespace TFB

/-- Code points of the decimal digit characters. -/
lemma digitChar_toNat : ∀ n < 10, (Nat.digitChar n).toNat = 48 + n := by decide

/-- Appending one digit multiplies the value by ten. -/
lemma digitsVal_append_digit (xs : List Char) (c : Char) :
    digitsVal (xs ++ [c]) = 10 * digitsVal xs + (c.toNat - 48) := by
  simp [digitsVal, List.foldl_append]

/-- With sufficient fuel, `natReprAux` renders exactly its input. -/
lemma natReprAux_val : ∀ f n, n < f → digitsVal (natReprAux f n) = n := by
  intro f
  induction f with
  | zero => intro n h; omega
  | succ f ih =>
    intro n h
    rw [natReprAux]
    by_cases h10 : n < 10
    · rw [if_pos h10]
      have hc := digitChar_toNat n h10
      simp [digitsVal, hc]
    · rw [if_neg h10]
      rw [digitsVal_append_digit]
      have hdiv : n / 10 < f := by
        have h1 : n / 10 < n := Nat.div_lt_self (by omega) (by omega)
        omega
      rw [ih (n / 10) hdiv]
      have hm : (Nat.digitChar (n % 10)).toNat = 48 + n % 10 :=
        digitChar_toNat (n % 10) (Nat.mod_lt n (by omega))
      rw [hm]
      omega

/-- Decimal rendering is injective. -/
lemma jsNatStr_inj {m n : Nat} (h : jsNatStr m = jsNatStr n) : m = n := by
  have hd : natReprAux (m + 1) m = natReprAux (n + 1) n := congrArg String.data h
  have hv := natReprAux_val (m + 1) m (Nat.lt_succ_self m)
  rw [hd, natReprAux_val (n + 1) n (Nat.lt_succ_self n)] at hv
  omega

end TFB

namespace TFB.OutputNaming

/-- The key written by `setKey` is present afterwards. -/
lemma lookup_setKey_self : ∀ (st : ConflictSt) (k : String) (v : Nat),
    lookupSt (setKey st k v) k = some v := by
  intro st
  induction st with
  | nil => intro k v; simp [setKey, lookupSt, List.lookup]
  | cons p st ih =>
    intro k v
    rcases p with ⟨k1, v1⟩
    rw [setKey]
    by_cases hk : k1 = k
    · rw [if_pos hk]
      simp [lookupSt, List.lookup]
    · rw [if_neg hk]
      have hbeq : (k == k1) = false := by
        simp [Ne.symm hk]
      simp only [lookupSt, List.lookup, hbeq]
      exact ih k v

/-- Other keys are untouched by `setKey`. -/
lemma lookup_setKey_other : ∀ (st : ConflictSt) (k k' : String) (v : Nat),
    k' ≠ k → lookupSt (setKey st k v) k' = lookupSt st k' := by
  intro st
  induction st with
  | nil =>
    intro k k' v hne
    have hbeq : (k' == k) = false := by simp [hne]
    simp [setKey, lookupSt, List.lookup, hbeq]
  | cons p st ih =>
    intro k k' v hne
    rcases p with ⟨k1, v1⟩
    rw [setKey]
    by_cases hk : k1 = k
    · subst hk
      simp only [lookupSt, List.lookup, show (k' == k1) = false by simp [hne]]
    · rw [if_neg hk]
      by_cases h1 : k' = k1
      · simp only [lookupSt, List.lookup, show (k' == k1) = true by simp [h1]]
      · simp only [lookupSt, List.lookup, show (k' == k1) = false by simp [h1]]
        exact ih k k' v hne

/-- A present key after `setKey`: the new key or an already present one. -/
lemma hasKey_setKey_self (st : ConflictSt) (k : String) (v : Nat) :
    hasKey (setKey st k v) k = true := by
  simp [hasKey, lookup_setKey_self]

/-- `setKey` keeps every present key present. -/
lemma hasKey_setKey_mono (st : ConflictSt) (k k' : String) (v : Nat)
    (h : hasKey st k' = true) : hasKey (setKey st k v) k' = true := by
  by_cases hk : k' = k
  · subst hk; exact hasKey_setKey_self st k' v
  · rw [hasKey, lookup_setKey_other st k k' v hk]
    exact h

/-- A present key occurs among the stored keys. -/
lemma hasKey_mem_keys : ∀ (st : ConflictSt) (k : String),
    hasKey st k = true → k ∈ st.map Prod.fst := by
  intro st
  induction st with
  | nil => intro k h; simp [hasKey, lookupSt, List.lookup] at h
  | cons p st ih =>
    intro k h
    rcases p with ⟨k1, v1⟩
    by_cases h1 : k = k1
    · simp [h1]
    · simp only [hasKey, lookupSt, List.lookup, show (k == k1) = false by simp [h1]] at h
      simp only [List.map_cons, List.mem_cons]
      exact Or.inr (ih k h)

/-- Candidate names for distinct counters are distinct strings. -/
lemma counterName_inj (baseName extension : String) {i j : Nat}
    (h : baseName ++ jsNatStr i ++ extension = baseName ++ jsNatStr j ++ extension) :
    i = j := by
  have hd : baseName.data ++ ((jsNatStr i).data ++ extension.data) =
      baseName.data ++ ((jsNatStr j).data ++ extension.data) := by
    have := congrArg String.data h
    simpa [List.append_assoc] using this
  have h2 := List.append_cancel_left hd
  have h3 : (jsNatStr i).data = (jsNatStr j).data := List.append_cancel_right h2
  exact jsNatStr_inj (String.toList_inj.mp h3)

/-- Pigeonhole: among `st.length + 1` consecutive counters, some candidate
name is not a key of the map. -/
lemma exists_free_counter (st : ConflictSt) (baseName extension : String) (c : Nat) :
    ∃ i, i < st.length + 1 ∧
      hasKey st (baseName ++ jsNatStr (c + i) ++ extension) = false := by
  by_contra hno
  push_neg at hno
  have hall : ∀ i, i < st.length + 1 →
      hasKey st (baseName ++ jsNatStr (c + i) ++ extension) = true := by
    intro i hi
    have := hno i hi
    revert this
    cases hasKey st (baseName ++ jsNatStr (c + i) ++ extension) <;> simp
  have hcard : (Finset.range (st.length + 1)).card ≤ (st.map Prod.fst).toFinset.card := by
    apply Finset.card_le_card_of_injOn (fun i => baseName ++ jsNatStr (c + i) ++ extension)
    · intro i hi
      rw [List.mem_toFinset]
      exact hasKey_mem_keys st _ (hall i (Finset.mem_range.mp hi))
    · intro i _ j _ h
      have := counterName_inj baseName extension h
      omega
  have hle : (st.map Prod.fst).toFinset.card ≤ st.length := by
    calc (st.map Prod.fst).toFinset.card ≤ (st.map Prod.fst).length :=
          List.toFinset_card_le _
      _ = st.length := List.length_map _ _
  rw [Finset.card_range] at hcard
  omega

/-- With an available candidate within the fuel, the while-loop search stops
at a name that is not a key. -/
lemma findFreeCounter_free (st : ConflictSt) (baseName extension : String) :
    ∀ (fuel c : Nat),
      (∃ i, i < fuel ∧ hasKey st (baseName ++ jsNatStr (c + i) ++ extension) = false) →
      hasKey st
        (baseName ++ jsNatStr (findFreeCounter st baseName extension fuel c) ++
          extension) = false := by
  intro fuel
  induction fuel with
  | zero =>
    rintro c ⟨i, hi, _⟩
    omega
  | succ f ih =>
    rintro c ⟨i, hi, hfree⟩
    rw [findFreeCounter]
    by_cases hc : hasKey st (baseName ++ jsNatStr c ++ extension) = true
    · rw [if_pos hc]
      apply ih (c + 1)
      have hi0 : i ≠ 0 := by
        rintro rfl
        rw [Nat.add_zero] at hfree
        rw [hfree] at hc
        exact Bool.false_ne_true hc
      refine ⟨i - 1, by omega, ?_⟩
      have harith : c + 1 + (i - 1) = c + i := by omega
      rw [harith]
      exact hfree
    · rw [if_neg hc]
      revert hc
      cases hasKey st (baseName ++ jsNatStr c ++ extension) <;> simp

/-- The name returned by `resolveNamingConflict` is never a key of the map
it was called with: it is fresh. -/
lemma resolve_fresh (st : ConflictSt) (b e : String) :
    hasKey st (resolveNamingConflict st b e).2 = false := by
  cases hl : lookupSt st (b ++ e) with
  | none => simp [resolveNamingConflict, hasKey, hl]
  | some c0 =>
    simp only [resolveNamingConflict, hl]
    exact findFreeCounter_free st b e (st.length + 1) (c0 + 1)
      (exists_free_counter st b e (c0 + 1))

/-- The returned name is recorded in the updated map. -/
lemma resolve_recorded (st : ConflictSt) (b e : String) :
    hasKey (resolveNamingConflict st b e).1 (resolveNamingConflict st b e).2 = true := by
  cases hl : lookupSt st (b ++ e) with
  | none =>
    simp only [resolveNamingConflict, hl]
    exact hasKey_setKey_self st (b ++ e) 1
  | some c0 =>
    simp only [resolveNamingConflict, hl]
    exact hasKey_setKey_self _ _ 1

/-- The update keeps every present key present. -/
lemma resolve_mono (st : ConflictSt) (b e k : String) (h : hasKey st k = true) :
    hasKey (resolveNamingConflict st b e).1 k = true := by
  cases hl : lookupSt st (b ++ e) with
  | none =>
    simp only [resolveNamingConflict, hl]
    exact hasKey_setKey_mono st _ k 1 h
  | some c0 =>
    simp only [resolveNamingConflict, hl]
    exact hasKey_setKey_mono _ _ k 1 (hasKey_setKey_mono st _ k _ h)

/-- Along any request sequence the returned names are pairwise distinct, and
each is fresh relative to the starting map. -/
lemma runResolver_fresh : ∀ (reqs : List (String × String)) (st : ConflictSt),
    ((runResolver st reqs).2).Nodup ∧
      ∀ name ∈ (runResolver st reqs).2, hasKey st name = false := by
  intro reqs
  induction reqs with
  | nil => intro st; exact ⟨List.nodup_nil, by intro name h; simp [runResolver] at h⟩
  | cons r reqs ih =>
    intro st
    rcases r with ⟨b, e⟩
    obtain ⟨hnodup, hfresh⟩ := ih (resolveNamingConflict st b e).1
    have hfreshSt : ∀ name ∈ (runResolver (resolveNamingConflict st b e).1 reqs).2,
        hasKey st name = false := by
      intro name hm
      cases hk : hasKey st name with
      | false => rfl
      | true =>
        have := resolve_mono st b e name hk
        rw [hfresh name hm] at this
        exact absurd this Bool.false_ne_true
    constructor
    · rw [runResolver]
      refine List.Nodup.cons ?_ hnodup
      intro hmem
      have h1 := hfresh _ hmem
      have h2 := resolve_recorded st b e
      rw [h1] at h2
      exact Bool.false_ne_true h2
    · intro name hm
      rw [runResolver] at hm
      rcases List.mem_cons.mp hm with rfl | hm
      · exact resolve_fresh st b e
      · exact hfreshSt name hm

end TFB.OutputNaming

namespace TFB

/-- C7: resolving the same base name and extension twice in a row from a
fresh conflict map yields the plain name and then the name with numeric
suffix 2 (`AB-sum.txt`, `AB-sum2.txt`); and along any request sequence the
resolver never returns a name it has already handed out (the returned names
are pairwise distinct). -/
theorem C7_resolveNamingConflict_unique :
    ((OutputNaming.runResolver [] [("AB-sum", ".txt"), ("AB-sum", ".txt")]).2 =
      ["AB-sum.txt", "AB-sum2.txt"]) ∧
    ∀ (reqs : List (String × String)),
      ((OutputNaming.runResolver [] reqs).2).Nodup := by
  constructor
  · decide
  · intro reqs
    exact (OutputNaming.runResolver_fresh reqs []).1

end TFB

namespace TFB.ToolFlowBuilder

variable {α : Type} [DecidableEq α]

/-- Successor membership is edge membership. -/
lemma mem_successors {conns : List (α × α)} {n m : α} :
    m ∈ successors conns n ↔ (n, m) ∈ conns := by
  constructor
  · intro h
    rcases List.mem_map.mp h with ⟨c, hc, rfl⟩
    have := (List.mem_filter.mp hc)
    rcases this with ⟨hmem, hfst⟩
    have : c.1 = n := by simpa using hfst
    rcases c with ⟨c1, c2⟩
    subst this
    exact hmem
  · intro h
    refine List.mem_map.mpr ⟨(n, m), ?_, rfl⟩
    exact List.mem_filter.mpr ⟨h, by simp⟩

/-- Successors are edge targets. -/
lemma successors_subset_targets {conns : List (α × α)} {n : α} :
    successors conns n ⊆ conns.map Prod.snd := by
  intro m hm
  exact List.mem_map.mpr ⟨(n, m), mem_successors.mp hm, rfl⟩

/-- Monotonicity and provenance of the DFS visited set: the output visited
set contains the input one, and everything new is the visited root or an
edge target. -/
lemma dfs_visited_mono (conns : List (α × α)) : ∀ f : Nat,
    (∀ (n : α) (V S : List α) (b : Bool) (V' : List α),
      dfsVisit conns f n V S = some (b, V') →
      V ⊆ V' ∧ ∀ x ∈ V', x ∈ V ∨ x = n ∨ x ∈ conns.map Prod.snd) ∧
    (∀ (ms V S : List α) (b : Bool) (V' : List α),
      dfsFold conns f ms V S = some (b, V') →
      V ⊆ V' ∧ ∀ x ∈ V', x ∈ V ∨ x ∈ ms ∨ x ∈ conns.map Prod.snd) := by
  intro f
  induction f with
  | zero =>
    constructor
    · intro n V S b V' h
      simp [dfsVisit] at h
    · intro ms V S b V' h
      cases ms with
      | nil =>
        rw [dfsFold] at h
        cases h
        exact ⟨List.Subset.refl V, fun x hx => Or.inl hx⟩
      | cons m ms =>
        rw [dfsFold] at h
        simp [dfsVisit] at h
  | succ f ih =>
    have hP : ∀ (n : α) (V S : List α) (b : Bool) (V' : List α),
        dfsVisit conns (f + 1) n V S = some (b, V') →
        V ⊆ V' ∧ ∀ x ∈ V', x ∈ V ∨ x = n ∨ x ∈ conns.map Prod.snd := by
      intro n V S b V' h
      rw [dfsVisit] at h
      by_cases hs : n ∈ S
      · rw [if_pos hs] at h
        cases h
        exact ⟨List.Subset.refl V, fun x hx => Or.inl hx⟩
      · rw [if_neg hs] at h
        by_cases hv : n ∈ V
        · rw [if_pos hv] at h
          cases h
          exact ⟨List.Subset.refl V, fun x hx => Or.inl hx⟩
        · rw [if_neg hv] at h
          obtain ⟨h1, h2⟩ := ih.2 (successors conns n) (n :: V) (n :: S) b V' h
          constructor
          · exact fun x hx => h1 (List.mem_cons_of_mem _ hx)
          · intro x hx
            rcases h2 x hx with hx1 | hx1 | hx1
            · rcases List.mem_cons.mp hx1 with rfl | hx2
              · exact Or.inr (Or.inl rfl)
              · exact Or.inl hx2
            · exact Or.inr (Or.inr (successors_subset_targets hx1))
            · exact Or.inr (Or.inr hx1)
    refine ⟨hP, ?_⟩
    intro ms
    induction ms with
    | nil =>
      intro V S b V' h
      rw [dfsFold] at h
      cases h
      exact ⟨List.Subset.refl V, fun x hx => Or.inl hx⟩
    | cons m ms ihm =>
      intro V S b V' h
      rw [dfsFold] at h
      cases hv : dfsVisit conns (f + 1) m V S with
      | none => rw [hv] at h; cases h
      | some r =>
        rcases r with ⟨bv, V1⟩
        rw [hv] at h
        cases bv with
        | true =>
          cases h
          obtain ⟨h1, h2⟩ := hP m V S true V' hv
          exact ⟨h1, fun x hx => (h2 x hx).imp id
            (fun hh => hh.elim (fun he => Or.inl (by simp [he])) Or.inr)⟩
        | false =>
          obtain ⟨h1, h2⟩ := hP m V S false V1 hv
          obtain ⟨h3, h4⟩ := ihm V1 S b V' h
          constructor
          · exact fun x hx => h3 (h1 hx)
          · intro x hx
            rcases h4 x hx with hx1 | hx1 | hx1
            · rcases h2 x hx1 with hx2 | hx2 | hx2
              · exact Or.inl hx2
              · exact Or.inr (Or.inl (by simp [hx2]))
              · exact Or.inr (Or.inr hx2)
            · exact Or.inr (Or.inl (List.mem_cons_of_mem _ hx1))
            · exact Or.inr (Or.inr hx1)

end TFB.ToolFlowBuilder

namespace TFB.ToolFlowBuilder

variable {α : Type} [DecidableEq α]

/-- With the vertex-count fuel bound, the DFS never exhausts its fuel: each
recursive descent strictly shrinks the set of relevant unvisited vertices. -/
lemma dfs_fuel_sufficient (conns : List (α × α)) (R : Finset α)
    (hT : ∀ x ∈ conns.map Prod.snd, x ∈ R) : ∀ f : Nat,
    (∀ (n : α) (V S : List α), n ∈ R → (∀ x ∈ V, x ∈ R) →
      (R.filter (fun x => x ∉ V)).card < f → dfsVisit conns f n V S ≠ none) ∧
    (∀ (ms V S : List α), (∀ m ∈ ms, m ∈ R) → (∀ x ∈ V, x ∈ R) →
      (R.filter (fun x => x ∉ V)).card < f → dfsFold conns f ms V S ≠ none) := by
  intro f
  induction f with
  | zero =>
    constructor
    · intro n V S _ _ hcard
      omega
    · intro ms V S _ _ hcard
      omega
  | succ f ih =>
    have hP : ∀ (n : α) (V S : List α), n ∈ R → (∀ x ∈ V, x ∈ R) →
        (R.filter (fun x => x ∉ V)).card < f + 1 → dfsVisit conns (f + 1) n V S ≠ none := by
      intro n V S hn hV hcard
      rw [dfsVisit]
      by_cases hs : n ∈ S
      · rw [if_pos hs]; exact Option.some_ne_none _
      · rw [if_neg hs]
        by_cases hv : n ∈ V
        · rw [if_pos hv]; exact Option.some_ne_none _
        · rw [if_neg hv]
          apply ih.2 (successors conns n) (n :: V) (n :: S)
          · intro m hm
            exact hT m (successors_subset_targets hm)
          · intro x hx
            rcases List.mem_cons.mp hx with rfl | hx
            · exact hn
            · exact hV x hx
          · have hss : R.filter (fun x => x ∉ n :: V) ⊂ R.filter (fun x => x ∉ V) := by
              constructor
              · intro x hx
                rcases Finset.mem_filter.mp hx with ⟨hx1, hx2⟩
                refine Finset.mem_filter.mpr ⟨hx1, ?_⟩
                intro hxv
                exact hx2 (List.mem_cons_of_mem _ hxv)
              · intro hsub
                have hmem : n ∈ R.filter (fun x => x ∉ V) :=
                  Finset.mem_filter.mpr ⟨hn, hv⟩
                have := Finset.mem_filter.mp (hsub hmem)
                exact this.2 (List.mem_cons_self n V)
            have := Finset.card_lt_card hss
            omega
    refine ⟨hP, ?_⟩
    intro ms
    induction ms with
    | nil =>
      intro V S _ _ _
      rw [dfsFold]
      exact Option.some_ne_none _
    | cons m ms ihm =>
      intro V S hms hV hcard
      rw [dfsFold]
      cases hvis : dfsVisit conns (f + 1) m V S with
      | none =>
        exact absurd hvis (hP m V S (hms m (List.mem_cons_self m ms)) hV hcard)
      | some r =>
        rcases r with ⟨bv, V1⟩
        cases bv with
        | true => exact Option.some_ne_none _
        | false =>
          obtain ⟨hsub, hprov⟩ := (dfs_visited_mono conns (f + 1)).1 m V S false V1 hvis
          apply ihm V1 S (fun x hx => hms x (List.mem_cons_of_mem _ hx))
          · intro x hx
            rcases hprov x hx with hx1 | hx1 | hx1
            · exact hV x hx1
            · subst hx1; exact hms x (List.mem_cons_self x ms)
            · exact hT x hx1
          · have hfil : R.filter (fun x => x ∉ V1) ⊆ R.filter (fun x => x ∉ V) := by
              intro x hx
              rcases Finset.mem_filter.mp hx with ⟨hx1, hx2⟩
              exact Finset.mem_filter.mpr ⟨hx1, fun hxv => hx2 (hsub hxv)⟩
            have := Finset.card_le_card hfil
            omega

/-- The top-level loop never exhausts the fuel either. -/
lemma loopsGo_ne_none (conns : List (α × α)) (R : Finset α)
    (hT : ∀ x ∈ conns.map Prod.snd, x ∈ R) (fuel : Nat) (hfuel : R.card < fuel) :
    ∀ (ns V : List α), (∀ n ∈ ns, n ∈ R) → (∀ x ∈ V, x ∈ R) →
      loopsGo conns fuel ns V ≠ none := by
  intro ns
  induction ns with
  | nil =>
    intro V _ _
    rw [loopsGo]
    exact Option.some_ne_none _
  | cons n ns ih =>
    intro V hns hV
    rw [loopsGo]
    by_cases hv : n ∈ V
    · rw [if_pos hv]
      exact ih V (fun x hx => hns x (List.mem_cons_of_mem _ hx)) hV
    · rw [if_neg hv]
      have hcard : (R.filter (fun x => x ∉ V)).card < fuel := by
        have : (R.filter (fun x => x ∉ V)).card ≤ R.card :=
          Finset.card_le_card (Finset.filter_subset _ _)
        omega
      cases hvis : dfsVisit conns fuel n V [] with
      | none =>
        exact absurd hvis
          ((dfs_fuel_sufficient conns R hT fuel).1 n V []
            (hns n (List.mem_cons_self n ns)) hV hcard)
      | some r =>
        rcases r with ⟨bv, V1⟩
        cases bv with
        | true => exact Option.some_ne_none _
        | false =>
          obtain ⟨hsub, hprov⟩ := (dfs_visited_mono conns fuel).1 n V [] false V1 hvis
          apply ih V1 (fun x hx => hns x (List.mem_cons_of_mem _ hx))
          intro x hx
          rcases hprov x hx with hx1 | hx1 | hx1
          · exact hV x hx1
          · subst hx1; exact hns x (List.mem_cons_self x ns)
          · exact hT x hx1

end TFB.ToolFlowBuilder

namespace TFB.ToolFlowBuilder

variable {α : Type} [DecidableEq α]

/-- Soundness of the DFS: a `true` answer exhibits a cycle.  The stack
invariant says every stacked vertex strictly reaches the vertex being
visited. -/
lemma dfs_sound (conns : List (α × α)) : ∀ f : Nat,
    (∀ (n : α) (V S : List α) (r : Bool × List α),
      (∀ s ∈ S, Relation.TransGen (edgeStep conns) s n) →
      dfsVisit conns f n V S = some r → r.1 = true → hasCycle conns) ∧
    (∀ (ms V S : List α) (r : Bool × List α),
      (∀ m ∈ ms, ∀ s ∈ S, Relation.TransGen (edgeStep conns) s m) →
      dfsFold conns f ms V S = some r → r.1 = true → hasCycle conns) := by
  intro f
  induction f with
  | zero =>
    constructor
    · intro n V S r _ h _
      simp [dfsVisit] at h
    · intro ms V S r _ h hr
      cases ms with
      | nil =>
        rw [dfsFold] at h
        cases h
        simp at hr
      | cons m ms =>
        rw [dfsFold] at h
        simp [dfsVisit] at h
  | succ f ih =>
    have hP : ∀ (n : α) (V S : List α) (r : Bool × List α),
        (∀ s ∈ S, Relation.TransGen (edgeStep conns) s n) →
        dfsVisit conns (f + 1) n V S = some r → r.1 = true → hasCycle conns := by
      intro n V S r hstack h hr
      rw [dfsVisit] at h
      by_cases hs : n ∈ S
      · exact ⟨n, hstack n hs⟩
      · rw [if_neg hs] at h
        by_cases hv : n ∈ V
        · rw [if_pos hv] at h
          cases h
          simp at hr
        · rw [if_neg hv] at h
          apply ih.2 (successors conns n) (n :: V) (n :: S) r ?_ h hr
          intro m hm s hsm
          have hedge : edgeStep conns n m := mem_successors.mp hm
          rcases List.mem_cons.mp hsm with rfl | hsm
          · exact Relation.TransGen.single hedge
          · exact Relation.TransGen.tail (hstack s hsm) hedge
    refine ⟨hP, ?_⟩
    intro ms
    induction ms with
    | nil =>
      intro V S r _ h hr
      rw [dfsFold] at h
      cases h
      simp at hr
    | cons m ms ihm =>
      intro V S r hms h hr
      rw [dfsFold] at h
      cases hvis : dfsVisit conns (f + 1) m V S with
      | none => rw [hvis] at h; cases h
      | some rv =>
        rcases rv with ⟨bv, V1⟩
        rw [hvis] at h
        cases bv with
        | true =>
          cases h
          exact hP m V S (true, V1) (hms m (List.mem_cons_self m ms)) hvis rfl
        | false =>
          exact ihm V1 S r (fun x hx => hms x (List.mem_cons_of_mem _ hx)) h hr

omit [DecidableEq α] in
/-- Everything reachable from a finished, off-stack vertex stays finished
and off the stack. -/
lemma dfs_escape {conns : List (α × α)} {V S : List α}
    (hAC : AlmostClosed conns V S) (hSF : NoEscape conns V S) {v t : α}
    (hr : Relation.ReflTransGen (edgeStep conns) v t)
    (hv : v ∈ V) (hvs : v ∉ S) : t ∈ V ∧ t ∉ S := by
  revert hv hvs
  induction hr using Relation.ReflTransGen.head_induction_on with
  | refl => intro hv hvs; exact ⟨hv, hvs⟩
  | head hstep hrest ih =>
    intro hv hvs
    rename_i a c
    have hc : c ∈ V := hAC a hv hvs c hstep
    have hcs : c ∉ S := by
      intro hcS
      exact hSF a hv hvs c hcS (Relation.ReflTransGen.single hstep)
    exact ih hc hcs

/-- Completeness core: a false-returning DFS preserves the invariant and
finishes its root. -/
lemma dfs_complete (conns : List (α × α)) : ∀ f : Nat,
    (∀ (n : α) (V S V' : List α), DfsInv conns V S →
      dfsVisit conns f n V S = some (false, V') →
      DfsInv conns V' S ∧ V ⊆ V' ∧ n ∈ V' ∧ n ∉ S) ∧
    (∀ (ms V S V' : List α), DfsInv conns V S →
      dfsFold conns f ms V S = some (false, V') →
      DfsInv conns V' S ∧ V ⊆ V' ∧ ∀ m ∈ ms, m ∈ V' ∧ m ∉ S) := by
  intro f
  induction f with
  | zero =>
    constructor
    · intro n V S V' _ h
      simp [dfsVisit] at h
    · intro ms V S V' hinv h
      cases ms with
      | nil =>
        rw [dfsFold] at h
        cases h
        exact ⟨hinv, List.Subset.refl V, by simp⟩
      | cons m ms =>
        rw [dfsFold] at h
        simp [dfsVisit] at h
  | succ f ih =>
    have hP : ∀ (n : α) (V S V' : List α), DfsInv conns V S →
        dfsVisit conns (f + 1) n V S = some (false, V') →
        DfsInv conns V' S ∧ V ⊆ V' ∧ n ∈ V' ∧ n ∉ S := by
      intro n V S V' hinv h
      obtain ⟨hAC, hSF, hCF⟩ := hinv
      rw [dfsVisit] at h
      by_cases hs : n ∈ S
      · rw [if_pos hs] at h
        simp at h
      · rw [if_neg hs] at h
        by_cases hv : n ∈ V
        · rw [if_pos hv] at h
          cases h
          exact ⟨⟨hAC, hSF, hCF⟩, List.Subset.refl V, hv, hs⟩
        · rw [if_neg hv] at h
          have hinv1 : DfsInv conns (n :: V) (n :: S) := by
            refine ⟨?_, ?_, ?_⟩
            · intro v hvm hvs m hm
              rcases List.mem_cons.mp hvm with rfl | hvm
              · exact absurd (List.mem_cons_self v S) hvs
              · exact List.mem_cons_of_mem _
                  (hAC v hvm (fun hc => hvs (List.mem_cons_of_mem _ hc)) m hm)
            · intro v hvm hvs s hsm hreach
              have hvn : v ≠ n := fun hc => hvs (hc ▸ List.mem_cons_self n S)
              have hvV : v ∈ V := by
                rcases List.mem_cons.mp hvm with rfl | hvm
                · exact absurd rfl hvn
                · exact hvm
              have hvS : v ∉ S := fun hc => hvs (List.mem_cons_of_mem _ hc)
              rcases List.mem_cons.mp hsm with rfl | hsm
              · exact hv (dfs_escape hAC hSF hreach hvV hvS).1
              · exact hSF v hvV hvS s hsm hreach
            · intro v hvm hvs
              have hvn : v ≠ n := fun hc => hvs (hc ▸ List.mem_cons_self n S)
              have hvV : v ∈ V := by
                rcases List.mem_cons.mp hvm with rfl | hvm
                · exact absurd rfl hvn
                · exact hvm
              exact hCF v hvV (fun hc => hvs (List.mem_cons_of_mem _ hc))
          obtain ⟨hinv2, hsub2, hpost⟩ := ih.2 (successors conns n) (n :: V) (n :: S) V' hinv1 h
          obtain ⟨hAC2, hSF2, hCF2⟩ := hinv2
          have hnV' : n ∈ V' := hsub2 (List.mem_cons_self n V)
          have hACout : AlmostClosed conns V' S := by
            intro v hvm hvs m hm
            by_cases hvn : v = n
            · subst hvn
              exact (hpost m (mem_successors.mpr hm)).1
            · exact hAC2 v hvm
                (fun hc => (List.mem_cons.mp hc).elim hvn hvs) m hm
          have hSFout : NoEscape conns V' S := by
            intro v hvm hvs s hsm hreach
            by_cases hvn : v = n
            · subst hvn
              rcases Relation.ReflTransGen.cases_head hreach with rfl | ⟨x, hstep, hrest⟩
              · exact hvs hsm
              · have hx := hpost x (mem_successors.mpr hstep)
                have := dfs_escape hAC2 hSF2 hrest hx.1 hx.2
                exact this.2 (List.mem_cons_of_mem _ hsm)
            · exact hSF2 v hvm (fun hc => (List.mem_cons.mp hc).elim hvn hvs) s
                (List.mem_cons_of_mem _ hsm) hreach
          have hCFout : CycleFree conns V' S := by
            intro v hvm hvs hcyc
            by_cases hvn : v = n
            · subst hvn
              rcases Relation.TransGen.head'_iff.mp hcyc with ⟨x, hstep, hrest⟩
              have hx := hpost x (mem_successors.mpr hstep)
              have := dfs_escape hAC2 hSF2 hrest hx.1 hx.2
              exact this.2 (List.mem_cons_self v S)
            · exact hCF2 v hvm (fun hc => (List.mem_cons.mp hc).elim hvn hvs) hcyc
          exact ⟨⟨hACout, hSFout, hCFout⟩,
            fun x hx => hsub2 (List.mem_cons_of_mem _ hx), hnV', hs⟩
    refine ⟨hP, ?_⟩
    intro ms
    induction ms with
    | nil =>
      intro V S V' hinv h
      rw [dfsFold] at h
      cases h
      exact ⟨hinv, List.Subset.refl V, by simp⟩
    | cons m ms ihm =>
      intro V S V' hinv h
      rw [dfsFold] at h
      cases hvis : dfsVisit conns (f + 1) m V S with
      | none => rw [hvis] at h; cases h
      | some rv =>
        rcases rv with ⟨bv, V1⟩
        rw [hvis] at h
        cases bv with
        | true => simp at h
        | false =>
          obtain ⟨hinv1, hsub1, hm1, hms1⟩ := hP m V S V1 hinv hvis
          obtain ⟨hinv2, hsub2, hpost⟩ := ihm V1 S V' hinv1 h
          refine ⟨hinv2, fun x hx => hsub2 (hsub1 hx), ?_⟩
          intro x hx
          rcases List.mem_cons.mp hx with rfl | hx
          · exact ⟨hsub2 hm1, hms1⟩
          · exact hpost x hx

/-- Top-level soundness over the node loop. -/
lemma loopsGo_sound (conns : List (α × α)) (fuel : Nat) :
    ∀ (ns V : List α), loopsGo conns fuel ns V = some true → hasCycle conns := by
  intro ns
  induction ns with
  | nil =>
    intro V h
    rw [loopsGo] at h
    cases h
  | cons n ns ih =>
    intro V h
    rw [loopsGo] at h
    by_cases hv : n ∈ V
    · rw [if_pos hv] at h
      exact ih V h
    · rw [if_neg hv] at h
      cases hvis : dfsVisit conns fuel n V [] with
      | none => rw [hvis] at h; cases h
      | some rv =>
        rcases rv with ⟨bv, V1⟩
        rw [hvis] at h
        cases bv with
        | true =>
          exact (dfs_sound conns fuel).1 n V [] (true, V1) (by simp) hvis rfl
        | false => exact ih V1 h

/-- Top-level completeness over the node loop: a false run yields a final
visited set containing every listed node, with the invariant intact. -/
lemma loopsGo_complete (conns : List (α × α)) (fuel : Nat) :
    ∀ (ns V : List α), DfsInv conns V [] → loopsGo conns fuel ns V = some false →
      ∃ V', V ⊆ V' ∧ DfsInv conns V' [] ∧ ∀ n ∈ ns, n ∈ V' := by
  intro ns
  induction ns with
  | nil =>
    intro V hinv _
    exact ⟨V, List.Subset.refl V, hinv, by simp⟩
  | cons n ns ih =>
    intro V hinv h
    rw [loopsGo] at h
    by_cases hv : n ∈ V
    · rw [if_pos hv] at h
      obtain ⟨V', hsub, hinv', hall⟩ := ih V hinv h
      refine ⟨V', hsub, hinv', ?_⟩
      intro x hx
      rcases List.mem_cons.mp hx with rfl | hx
      · exact hsub hv
      · exact hall x hx
    · rw [if_neg hv] at h
      cases hvis : dfsVisit conns fuel n V [] with
      | none => rw [hvis] at h; cases h
      | some rv =>
        rcases rv with ⟨bv, V1⟩
        rw [hvis] at h
        cases bv with
        | true => cases h
        | false =>
          obtain ⟨hinv1, hsub1, hn1, _⟩ := (dfs_complete conns fuel).1 n V [] V1 hinv hvis
          obtain ⟨V', hsub2, hinv2, hall⟩ := ih V1 hinv1 h
          refine ⟨V', fun x hx => hsub2 (hsub1 hx), hinv2, ?_⟩
          intro x hx
          rcases List.mem_cons.mp hx with rfl | hx
          · exact hsub2 hn1
          · exact hall x hx

end TFB.ToolFlowBuilder

namespace TFB

open ToolFlowBuilder

/-- C5: over any workflow whose connections join listed nodes, the DFS loop
detection answers `true` exactly when the connection graph has a cycle; the
triangle is flagged and the shared-ancestor diamond is not. -/
theorem C5_detectWorkflowLoops_iff :
    (∀ (nodes : List String) (conns : List (String × String)),
        (∀ p ∈ conns, p.1 ∈ nodes) →
        (detectWorkflowLoops nodes conns = true ↔ hasCycle conns)) ∧
    detectWorkflowLoops ["X", "Y", "Z"] [("X", "Y"), ("Y", "Z"), ("Z", "X")] = true ∧
    detectWorkflowLoops ["X", "Y", "Z", "W"]
      [("X", "Y"), ("X", "Z"), ("Y", "W"), ("Z", "W")] = false := by
  refine ⟨?_, ?_, ?_⟩
  · intro nodes conns hE
    classical
    set R : Finset String :=
      (nodes ++ conns.map Prod.fst ++ conns.map Prod.snd).toFinset with hR
    have hT : ∀ x ∈ conns.map Prod.snd, x ∈ R := by
      intro x hx
      rw [hR, List.mem_toFinset]
      exact List.mem_append.mpr (Or.inr hx)
    have hfuel : R.card < workflowFuel nodes conns := by
      have h1 : R.card ≤ (nodes ++ conns.map Prod.fst ++ conns.map Prod.snd).length :=
        List.toFinset_card_le _
      rw [workflowFuel]
      omega
    have hne : loopsGo conns (workflowFuel nodes conns) nodes [] ≠ none := by
      apply loopsGo_ne_none conns R hT _ hfuel
      · intro n hn
        rw [hR, List.mem_toFinset]
        exact List.mem_append.mpr (Or.inl (List.mem_append.mpr (Or.inl hn)))
      · intro x hx
        cases hx
    cases hgo : loopsGo conns (workflowFuel nodes conns) nodes [] with
    | none => exact absurd hgo hne
    | some b =>
      have hdet : detectWorkflowLoops nodes conns = b := by
        rw [detectWorkflowLoops, hgo]
        rfl
      cases b with
      | true =>
        rw [hdet]
        exact ⟨fun _ => loopsGo_sound conns _ nodes [] hgo, fun _ => rfl⟩
      | false =>
        rw [hdet]
        constructor
        · intro h
          exact absurd h Bool.false_ne_true
        · rintro ⟨v, hcyc⟩
          exfalso
          have hinv0 : DfsInv conns [] [] := by
            refine ⟨?_, ?_, ?_⟩ <;> intro v hv <;> cases hv
          obtain ⟨V', _, ⟨_, _, hCF⟩, hall⟩ :=
            loopsGo_complete conns _ nodes [] hinv0 hgo
          rcases Relation.TransGen.head'_iff.mp hcyc with ⟨x, hstep, _⟩
          have hvn : v ∈ nodes := hE (v, x) hstep
          exact hCF v (hall v hvn) (by simp) hcyc
  · simp [detectWorkflowLoops, loopsGo, dfsVisit, dfsFold, successors, workflowFuel]
  · simp [detectWorkflowLoops, loopsGo, dfsVisit, dfsFold, successors, workflowFuel]

/-- C5 (witness): the equivalence applied at the concrete triangle graph. -/
theorem C5_witness :
    detectWorkflowLoops ["X", "Y", "Z"] [("X", "Y"), ("Y", "Z"), ("Z", "X")] = true ↔
      hasCycle [("X", "Y"), ("Y", "Z"), ("Z", "X")] :=
  C5_detectWorkflowLoops_iff.1 ["X", "Y", "Z"] [("X", "Y"), ("Y", "Z"), ("Z", "X")]
    (by decide)

end TFB
